import Mathlib

/-!
Verification of the receive-side TCP/IPv4 core of the repository
(CS144-style raw-socket TCP in Rust) against its natural-language
specification.

The development shallowly embeds the relevant Rust sources:

* `src/conn/byte_stream.rs`  → `ByteStream`
* `src/conn/reassembler.rs`  → `Reassembler` (the `src/tcp/reassembler.rs`
  variant is the same algorithm with `Box<[u8]>` in place of `Vec<u8>`)
* `src/tcp/wrap32.rs`        → `Wrap32`
* `src/ip/ip_header.rs`      → `IPHeader`
* `src/tcp/tcp_header.rs`    → `TCPHeader`
* `src/packet/tcp_over_ip.rs`→ `wrapPacket` / `unwrapPacket`
* `src/tcp/receiver.rs`      → `TcpReceiver`

Machine integers are modelled as `Nat` with explicit `% 2^w` at the points
where Rust performs wrapping casts or wrapping arithmetic; byte buffers
(`Vec<u8>`, `VecDeque<u8>`) are `List Nat` whose elements are byte values
(no arithmetic is performed on reassembler payload bytes, and the header
codecs truncate with `% 256` exactly where Rust's `u8` typing does).
Fallible operations return `Except` / an explicit error flag.
-/

/-! ## List helpers: slices, overlays and resizing (Rust slice/Vec idioms) -/

/-- `data[a..b]` on a Rust slice: drop `a`, keep `b - a` elements. -/
def listSlice (l : List Nat) (a b : Nat) : List Nat :=
  (l.drop a).take (b - a)

/-- `dst[i..i+src.len()].copy_from_slice(src)`: overwrite the region of
`dst` starting at `i` with `src`.  (Rust panics when the region is out of
bounds; all uses below are in bounds, which the bounds lemmas record.) -/
def listOverlay (dst : List Nat) (i : Nat) (src : List Nat) : List Nat :=
  dst.take i ++ src ++ dst.drop (i + src.length)

/-- `Vec::resize(n, z)`: truncate or pad with `z` up to length `n`. -/
def listResize (l : List Nat) (n : Nat) (z : Nat) : List Nat :=
  if n ≤ l.length then l.take n else l ++ List.replicate (n - l.length) z

/-! ## The ordered segment map (`BTreeMap<usize, Vec<u8>>`)

Modelled as an association list kept sorted by strictly increasing key,
which is the representation invariant of `BTreeMap` that the reassembler
relies on (ascending iteration order, unique keys). -/

/-- `BTreeMap<usize, Vec<u8>>`: key = absolute start index, value = bytes. -/
abbrev SegMap : Type := List (Nat × List Nat)

/-- `BTreeMap::get`: first entry with the given key. -/
def SegMap.find? : SegMap → Nat → Option (List Nat)
  | [], _ => none
  | (k', v') :: t, k => if k = k' then some v' else SegMap.find? t k

/-- `BTreeMap::remove`: drop the entry with the given key. -/
def SegMap.erase : SegMap → Nat → SegMap
  | [], _ => []
  | (k', v') :: t, k => if k = k' then t else (k', v') :: SegMap.erase t k

/-- `BTreeMap::insert`: insert at the sorted position, replacing an equal key. -/
def SegMap.insert : SegMap → Nat → List Nat → SegMap
  | [], k, v => [(k, v)]
  | (k', v') :: t, k, v =>
    if k < k' then (k, v) :: (k', v') :: t
    else if k = k' then (k, v) :: t
    else (k', v') :: SegMap.insert t k v

/-- Keys strictly ascending: the `BTreeMap` representation invariant. -/
def SegMap.SortedKeys (m : SegMap) : Prop :=
  List.Pairwise (fun a b : Nat × List Nat => a.1 < b.1) m

/-- Entries pairwise disjoint in key order: each segment ends at or before
the next one starts. -/
def SegMap.DisjointSorted (m : SegMap) : Prop :=
  List.Pairwise (fun a b : Nat × List Nat => a.1 + a.2.length ≤ b.1) m

/-! ## ByteStream (`src/conn/byte_stream.rs`)

A bounded in-order FIFO of bytes.  `write` mirrors `impl Write` (fails on a
closed stream, appends `min(|buf|, remaining_capacity)` bytes), `read`
mirrors `impl Read` with a caller buffer of length `n`. -/

structure ByteStream where
  buffer : List Nat
  capacity : Nat
  bytes_written : Nat
  bytes_read : Nat
  closed : Bool
  deriving Repr, DecidableEq

/-- `ByteStream::new(capacity)`. -/
def ByteStream.new (capacity : Nat) : ByteStream :=
  { buffer := [], capacity := capacity, bytes_written := 0, bytes_read := 0, closed := false }

/-- `capacity.saturating_sub(buffer.len())`. -/
def ByteStream.remaining_capacity (s : ByteStream) : Nat :=
  s.capacity - s.buffer.length

/-- `Write::write`: error when closed, else append `min(|buf|, remaining)`
bytes and report the number written. -/
def ByteStream.write (s : ByteStream) (buf : List Nat) : Except String (ByteStream × Nat) :=
  if s.closed then Except.error "stream closed"
  else
    let to_write := min buf.length (ByteStream.remaining_capacity s)
    Except.ok ({ s with buffer := s.buffer ++ buf.take to_write,
                        bytes_written := s.bytes_written + to_write }, to_write)

/-- `Read::read` with a caller buffer of length `n`: drain
`min(n, |buffer|)` bytes from the front. -/
def ByteStream.read (s : ByteStream) (n : Nat) : ByteStream × List Nat :=
  let to_read := min n s.buffer.length
  ({ s with buffer := s.buffer.drop to_read, bytes_read := s.bytes_read + to_read },
    s.buffer.take to_read)

/-- `ByteStream::close`. -/
def ByteStream.close (s : ByteStream) : ByteStream := { s with closed := true }

/-- `ByteStream::buffer_size`. -/
def ByteStream.buffer_size (s : ByteStream) : Nat := s.buffer.length

/-- `ByteStream::eof`: closed and empty. -/
def ByteStream.eof (s : ByteStream) : Bool := s.closed && s.buffer.isEmpty

/-! ## Reassembler (`src/conn/reassembler.rs`)

The out-of-order segment buffer.  `src/tcp/reassembler.rs` is the same
algorithm (with `Box<[u8]>` buffers and `insert(seq_num, data, is_last)`
argument order instead of `insert(data, seq_num, is_last)`); a single
embedding covers both.  The `Bool` paired with results mirrors the
`io::Result<()>` (`true` = the error branch was taken: writing to a closed
stream, which `?` propagates after the segment was already removed). -/

structure Reassembler where
  segments : SegMap
  output : ByteStream
  next_byte_idx : Nat
  last_byte_idx : Option Nat
  last_recvd : Bool
  deriving Repr, DecidableEq

/-- `Reassembler::new(output)`. -/
def Reassembler.new (output : ByteStream) : Reassembler :=
  { segments := [], output := output, next_byte_idx := 0,
    last_byte_idx := none, last_recvd := false }

/-- `Reassembler::bytes_pending`: sum of pending segment lengths. -/
def Reassembler.bytes_pending (r : Reassembler) : Nat :=
  (r.segments.map (fun p => p.2.length)).sum

/-- `Reassembler::is_done`: the last segment was received and everything up
to `last_byte_idx` has been committed. -/
def Reassembler.is_done (r : Reassembler) : Bool :=
  r.last_recvd &&
    match r.last_byte_idx with
    | some last_idx => decide (last_idx ≤ r.next_byte_idx)
    | none => false

/-- `Reassembler::find_overlapping_segments` (on the underlying map): all
stored segments whose range `[k, k+|v|)` strictly intersects `[start, e)`,
in ascending key order (`BTreeMap::range(..e)` + the `seg_end > start`
filter). -/
def findOverlapping (segs : SegMap) (start e : Nat) : SegMap :=
  segs.filter (fun p => decide (p.1 < e) && decide (start < p.1 + p.2.length))

/-- `Reassembler::find_overlapping_segments`. -/
def Reassembler.find_overlapping_segments (r : Reassembler) (start e : Nat) : SegMap :=
  findOverlapping r.segments start e

/-- Loop state of the merge loop in `Reassembler::insert_buffer`:
the accumulated `[m_start, m_end)` range, the merge buffer, and the map
being edited. -/
structure MergeSt where
  m_start : Nat
  m_end : Nat
  merged : List Nat
  segs : SegMap
  deriving Repr

/-- One iteration of the merge loop in `Reassembler::insert_buffer`:
remove the overlapping segment, grow the merge buffer if needed, and
overlay the old segment's bytes (fully, or — when it sticks out past
`m_end` — only the overlapping part, re-inserting the tail at `m_end`). -/
def mergeStep (st : MergeSt) (p : Nat × List Nat) : MergeSt :=
  let segs := SegMap.erase st.segs p.1
  let seg_end := p.1 + p.2.length
  if seg_end ≤ st.m_end then
    let m_start := min st.m_start p.1
    let m_end := max st.m_end seg_end
    let insert_idx := p.1 - m_start
    let req_len := m_end - m_start
    let m1 := if st.merged.length < req_len then listResize st.merged req_len 0 else st.merged
    let m2 := listOverlay m1 insert_idx p.2
    ⟨m_start, m_end, m2, segs⟩
  else
    let m_start := min st.m_start p.1
    let overlap_len := st.m_end - p.1
    let insert_idx := p.1 - m_start
    let req_len := st.m_end - m_start
    let m1 := if st.merged.length < req_len then listResize st.merged req_len 0 else st.merged
    let m2 := listOverlay m1 insert_idx (p.2.take overlap_len)
    let rem_start := st.m_end
    let rem_data := p.2.drop overlap_len
    ⟨m_start, st.m_end, m2, SegMap.insert segs rem_start rem_data⟩

/-- The merge loop of `Reassembler::insert_buffer`, folded over the
overlapping segments starting from the state
`⟨start, e, window, segments⟩`. -/
def mergeFold (segs : SegMap) (start e : Nat) (window : List Nat) : MergeSt :=
  (findOverlapping segs start e).foldl mergeStep ⟨start, e, window, segs⟩

/-- The merge-and-reinsert step of `Reassembler::insert_buffer`: run the
merge loop, overlay the incoming window on top of the merge buffer, and
store the merged segment at `m_start`. -/
def mergeInto (segs : SegMap) (start e : Nat) (window : List Nat) : SegMap :=
  SegMap.insert (mergeFold segs start e window).segs
    (mergeFold segs start e window).m_start
    (listOverlay (mergeFold segs start e window).merged
      (start - (mergeFold segs start e window).m_start) window)

/-- `Reassembler::insert_buffer`: clamp the incoming range to
`[max(seq_num, next_byte_idx), min(seq_num + |data|, next_byte_idx +
remaining_capacity))`, merge every strictly-overlapping stored segment into
one buffer, overlay the incoming window on top, and store the result. -/
def Reassembler.insert_buffer (r : Reassembler) (seq_num : Nat) (data : List Nat) :
    Reassembler :=
  if data.isEmpty then r
  else
    let last_idx := seq_num + data.length
    if last_idx ≤ r.next_byte_idx then r
    else
      let start := max seq_num r.next_byte_idx
      let e := min last_idx (r.next_byte_idx + ByteStream.remaining_capacity r.output)
      if e ≤ start then r
      else
        let window := listSlice data (start - seq_num) (e - seq_num)
        { r with segments := mergeInto r.segments start e window }

/-- The `while let Some(data) = segments.remove(&next_byte_idx)` loop of
`Reassembler::try_write`, with explicit fuel.  One unit of fuel per
iteration; since every continuing iteration removes a stored segment,
`segments.length + 1` fuel (used by `Reassembler.try_write`) always
suffices, so the fuel-exhausted branch is unreachable. -/
def Reassembler.try_write_fuel : Nat → Reassembler → Reassembler × Bool
  | 0, r => (r, false)
  | fuel + 1, r =>
    match SegMap.find? r.segments r.next_byte_idx with
    | none => (r, false)
    | some data =>
      let segs := SegMap.erase r.segments r.next_byte_idx
      match ByteStream.write r.output data with
      | Except.error _ => ({ r with segments := segs }, true)
      | Except.ok (out, n) =>
        if n = 0 then
          ({ r with segments := SegMap.insert segs r.next_byte_idx data, output := out },
            false)
        else if n < data.length then
          ({ r with segments := SegMap.insert segs (r.next_byte_idx + n) (data.drop n),
                    output := out, next_byte_idx := r.next_byte_idx + n }, false)
        else
          let r' := { r with segments := segs, output := out,
                             next_byte_idx := r.next_byte_idx + n }
          if Reassembler.is_done r' then
            ({ r' with output := ByteStream.close r'.output }, false)
          else Reassembler.try_write_fuel fuel r'

/-- `Reassembler::try_write`: drain contiguous data from
`next_byte_idx` into the output stream. -/
def Reassembler.try_write (r : Reassembler) : Reassembler × Bool :=
  Reassembler.try_write_fuel (r.segments.length + 1) r

/-- `Reassembler::insert(data, seq_num, is_last)`. -/
def Reassembler.insert (r : Reassembler) (seq_num : Nat) (data : List Nat)
    (is_last : Bool) : Reassembler × Bool :=
  if data.isEmpty && !is_last then (r, false)
  else
    let r1 := if is_last then
        { r with last_recvd := true, last_byte_idx := some (seq_num + data.length) }
      else r
    if Reassembler.is_done r1 then ({ r1 with output := ByteStream.close r1.output }, false)
    else
      let r2 := Reassembler.insert_buffer r1 seq_num data
      Reassembler.try_write r2

/-- `impl Read for Reassembler`: delegate to the output stream with a
caller buffer of length `n`. -/
def Reassembler.read (r : Reassembler) (n : Nat) : Reassembler × List Nat :=
  let res := ByteStream.read r.output n
  ({ r with output := res.1 }, res.2)

/-- `read_to_end` on the reassembler (used by `TcpReceiver`): repeated
reads until empty, i.e. drain the whole output buffer. -/
def Reassembler.read_to_end (r : Reassembler) : Reassembler × List Nat :=
  Reassembler.read r r.output.buffer.length

/-! ## Wrap32 (`src/tcp/wrap32.rs`)

A 32-bit sequence number.  `wrap` adds in `u64` (wrapping, hence the
`% 2^64`) and truncates to `u32` (`% 2^32`).  `unwrap` computes the
relative number with `u32::wrapping_sub`, then
`k = (checkpoint + 2^31).saturating_sub(relative) >> 32` (the `u64`
addition wraps, `saturating_sub` is truncated `Nat` subtraction, `>> 32`
is division by `2^32`) and returns `relative + k * 2^32` (a `u64`
addition, hence the final `% 2^64`). -/

structure Wrap32 where
  value : Nat
  deriving Repr, DecidableEq

/-- `Wrap32::new(u32)`. -/
def Wrap32.new (v : Nat) : Wrap32 := ⟨v % 4294967296⟩

/-- `Wrap32::wrap(n, isn) = (n + isn) mod 2^32` (the `u64` sum wraps
mod `2^64` first; `2^32` divides `2^64`, so the extra reduction is exact). -/
def Wrap32.wrap (n : Nat) (isn : Wrap32) : Wrap32 :=
  Wrap32.new ((n + isn.value) % 18446744073709551616)

/-- `Wrap32::unwrap(self, isn, checkpoint)`. -/
def Wrap32.unwrap (self : Wrap32) (isn : Wrap32) (checkpoint : Nat) : Nat :=
  let relative := (self.value + 4294967296 - isn.value) % 4294967296
  let k := ((checkpoint + 2147483648) % 18446744073709551616 - relative) / 4294967296
  (relative + k * 4294967296) % 18446744073709551616

/-- `impl Add for Wrap32`: wrapping add of the inner `u32`. -/
def Wrap32.add (a b : Wrap32) : Wrap32 := Wrap32.new (a.value + b.value)

/-! ## Header codecs (`src/ip/ip_header.rs`, `src/tcp/tcp_header.rs`,
`src/packet/tcp_over_ip.rs`)

Byte buffers are `List Nat`; `u8`/`u16`/`u32` truncations are explicit.
`serialize` is modelled as the list of bytes the Rust code writes: the code
fills the buffer with the checksum field zeroed, computes the checksum over
those bytes, and writes it back at its offset — here `serializeWith` builds
the buffer with an arbitrary checksum field and `serialize` plugs in the
computed one.  (The Rust `BufferTooSmall` branches concern the caller's
buffer size; the packet codec always allocates exactly the needed size.) -/

/-- Truncation to `u8` (Rust `as u8` / the `u8` typing of a field). -/
def u8 (x : Nat) : Nat := x % 256

/-- Truncation to `u16`. -/
def u16 (x : Nat) : Nat := x % 65536

/-- Truncation to `u32`. -/
def u32 (x : Nat) : Nat := x % 4294967296

/-- Byte `i` of a buffer (`buf[i]`; in-bounds at every use below). -/
def byteAt (l : List Nat) (i : Nat) : Nat := u8 (l.getD i 0)

/-- `HeaderError` (`src/packet/errors.rs`). -/
inductive HeaderError where
  | BufferTooSmall (expected found : Nat)
  | BadChecksum (protocol : String)
  deriving Repr, DecidableEq

/-- `Ipv4Addr`: four octets. -/
structure Ipv4Addr where
  o0 : Nat
  o1 : Nat
  o2 : Nat
  o3 : Nat
  deriving Repr, DecidableEq

/-- `IPFlags::pack` (`src/ip/ip_flags.rs`): `self.bits() | (frag_offset & 0x1fff)`.
The flags value is the `bits()` of the bitflags set (only bits 15/14/13). -/
def IPFlags.pack (flagsBits frag_offset : Nat) : Nat :=
  flagsBits ||| (frag_offset &&& 8191)

/-- `IPFlags::from_bits_truncate`: keep only the RF/DF/MF bits. -/
def IPFlags.fromBitsTruncate (bits : Nat) : Nat := bits &&& 57344

/-- `IPFlags::unpack`: `(from_bits_truncate(bits & 0xe000), bits & 0x1fff)`. -/
def IPFlags.unpack (bits : Nat) : Nat × Nat :=
  (IPFlags.fromBitsTruncate (bits &&& 57344), bits &&& 8191)

/-- `IPHeader` (`src/ip/ip_header.rs`).  All integer fields as `Nat`
(`u8`/`u16` in Rust); `flags` stores the bitflags `bits()` value. -/
structure IPHeader where
  version : Nat
  ihl : Nat
  tos : Nat
  total_len : Nat
  id : Nat
  flags : Nat
  frag_offset : Nat
  ttl : Nat
  protocol : Nat
  checksum : Nat
  src_ip : Ipv4Addr
  dst_ip : Ipv4Addr
  deriving Repr, DecidableEq

/-- 16-bit big-endian word sum of `IPHeader::checksum`
(`data.chunks(2).map(u16::from_be_bytes).sum()`).  A trailing singleton
chunk would make Rust panic on `chunk[1]`; the function is only applied to
20-byte buffers, so that case is unreachable (modelled as a high byte). -/
def ipWords : List Nat → Nat
  | [] => 0
  | [b] => u8 b * 256
  | b0 :: b1 :: rest => u8 b0 * 256 + u8 b1 + ipWords rest

/-- `IPHeader::checksum`: sum 16-bit big-endian words as `u32`, fold the
carry once (`(sum & 0xffff) + (sum >> 16)`), return the complement
truncated to `u16` (`!(folded as u16)`). -/
def ipChecksum (data : List Nat) : Nat :=
  let sum := ipWords data % 4294967296
  let folded := sum % 65536 + sum / 65536
  65535 - folded % 65536

/-- The 20 bytes written by `IPHeader::serialize`, with checksum field `ck`
at offset 10.  `serialize` writes the fields big-endian with the checksum
zeroed, then stores the computed checksum at offset 10. -/
def IPHeader.serializeWith (h : IPHeader) (ck : Nat) : List Nat :=
  let fl := IPFlags.pack (u16 h.flags) (u16 h.frag_offset)
  [ (u8 h.version * 16) % 256 ||| u8 h.ihl,
    u8 h.tos,
    u16 h.total_len / 256, u16 h.total_len % 256,
    u16 h.id / 256, u16 h.id % 256,
    fl / 256, fl % 256,
    u8 h.ttl, u8 h.protocol,
    u16 ck / 256, u16 ck % 256,
    u8 h.src_ip.o0, u8 h.src_ip.o1, u8 h.src_ip.o2, u8 h.src_ip.o3,
    u8 h.dst_ip.o0, u8 h.dst_ip.o1, u8 h.dst_ip.o2, u8 h.dst_ip.o3 ]

/-- `IPHeader::serialize`: the 20 bytes with the computed checksum stored
at offset 10. -/
def IPHeader.serialize (h : IPHeader) : List Nat :=
  IPHeader.serializeWith h (ipChecksum (IPHeader.serializeWith h 0))

/-- `IPHeader::parse`. -/
def IPHeader.parse (buf : List Nat) : Except HeaderError IPHeader :=
  if buf.length < 20 then Except.error (HeaderError.BufferTooSmall 20 buf.length)
  else if ipChecksum (buf.take 20) ≠ 0 then
    Except.error (HeaderError.BadChecksum "IP")
  else
    let combo := byteAt buf 6 * 256 + byteAt buf 7
    let fl := IPFlags.unpack combo
    Except.ok
      { version := byteAt buf 0 / 16,
        ihl := byteAt buf 0 % 16,
        tos := byteAt buf 1,
        total_len := byteAt buf 2 * 256 + byteAt buf 3,
        id := byteAt buf 4 * 256 + byteAt buf 5,
        flags := fl.1,
        frag_offset := fl.2,
        ttl := byteAt buf 8,
        protocol := byteAt buf 9,
        checksum := byteAt buf 10 * 256 + byteAt buf 11,
        src_ip := ⟨byteAt buf 12, byteAt buf 13, byteAt buf 14, byteAt buf 15⟩,
        dst_ip := ⟨byteAt buf 16, byteAt buf 17, byteAt buf 18, byteAt buf 19⟩ }

/-- TCP flag bits (`src/tcp/tcp_flags.rs`): CWR..FIN from bit 7 down to 0. -/
def TCPFlags.CWR : Nat := 128
def TCPFlags.ECE : Nat := 64
def TCPFlags.URG : Nat := 32
def TCPFlags.ACK : Nat := 16
def TCPFlags.PSH : Nat := 8
def TCPFlags.RST : Nat := 4
def TCPFlags.SYN : Nat := 2
def TCPFlags.FIN : Nat := 1

/-- `bitflags` `contains`: all bits of `bit` are set in `flags`. -/
def TCPFlags.contains (flags bit : Nat) : Bool := flags &&& bit == bit

/-- `TcpFlags::from_bits_truncate`: all 8 bits are defined flags, so this
keeps the low byte. -/
def TCPFlags.fromBitsTruncate (bits : Nat) : Nat := bits &&& 255

/-- `TCPHeader` (`src/tcp/tcp_header.rs`); `flags` stores the `bits()`
value of the flag set. -/
structure TCPHeader where
  src_port : Nat
  dst_port : Nat
  seq_no : Wrap32
  ack_no : Wrap32
  data_offset : Nat
  reserved : Nat
  flags : Nat
  window : Nat
  checksum : Nat
  urgent : Nat
  options : List Nat
  payload : List Nat
  deriving Repr, DecidableEq

/-- 16-bit big-endian word sum of the TCP segment bytes: the
`for i in (0..len-1).step_by(2)` pair loop plus the odd-length rule that
the final byte is the high byte of a zero-padded word. -/
def tcpWords : List Nat → Nat
  | [] => 0
  | [b] => u8 b * 256
  | b0 :: b1 :: rest => u8 b0 * 256 + u8 b1 + tcpWords rest

/-- The accumulated (pre-fold) sum of `TCPHeader::checksum`: IPv4
pseudo-header words (source and destination addresses, protocol, segment
length) plus the 16-bit word sum of the segment.  Rust accumulates with
wrapping `u32` adds, equal to this total reduced `% 2^32`. -/
def tcpSum (data : List Nat) (iph : IPHeader) : Nat :=
  (u8 iph.src_ip.o0 * 256 + u8 iph.src_ip.o1)
    + (u8 iph.src_ip.o2 * 256 + u8 iph.src_ip.o3)
    + (u8 iph.dst_ip.o0 * 256 + u8 iph.dst_ip.o1)
    + (u8 iph.dst_ip.o2 * 256 + u8 iph.dst_ip.o3)
    + u8 iph.protocol + data.length + tcpWords data

/-- `TCPHeader::checksum(data, iph)`: the pseudo-header + segment sum,
folded once, complemented, truncated to `u16`. -/
def tcpChecksum (data : List Nat) (iph : IPHeader) : Nat :=
  let sum := tcpSum data iph % 4294967296
  let folded := sum % 65536 + sum / 65536
  65535 - folded % 65536

/-- The bytes written by `TCPHeader::serialize` with checksum field `ck`:
the 20-byte fixed area, then the options, then the payload.
(`buf[20..header_len].copy_from_slice(&options)` requires
`options.len() = data_offset*4 - 20`, which well-formedness supplies.) -/
def TCPHeader.serializeWith (t : TCPHeader) (ck : Nat) : List Nat :=
  [ u16 t.src_port / 256, u16 t.src_port % 256,
    u16 t.dst_port / 256, u16 t.dst_port % 256,
    u32 t.seq_no.value / 16777216, u32 t.seq_no.value / 65536 % 256,
    u32 t.seq_no.value / 256 % 256, u32 t.seq_no.value % 256,
    u32 t.ack_no.value / 16777216, u32 t.ack_no.value / 65536 % 256,
    u32 t.ack_no.value / 256 % 256, u32 t.ack_no.value % 256,
    (u8 t.data_offset * 16) % 256 ||| u8 t.reserved,
    u8 t.flags,
    u16 t.window / 256, u16 t.window % 256,
    u16 ck / 256, u16 ck % 256,
    u16 t.urgent / 256, u16 t.urgent % 256 ] ++ t.options ++ t.payload

/-- `TCPHeader::serialize(buf, iph)`: emit with zero checksum, compute the
checksum over the whole segment, store it at offset 16. -/
def TCPHeader.serialize (t : TCPHeader) (iph : IPHeader) : List Nat :=
  TCPHeader.serializeWith t (tcpChecksum (TCPHeader.serializeWith t 0) iph)

/-- `TCPHeader::parse(buf, iph)`. -/
def TCPHeader.parse (buf : List Nat) (iph : IPHeader) : Except HeaderError TCPHeader :=
  if buf.length < 20 then Except.error (HeaderError.BufferTooSmall 20 buf.length)
  else
    let data_offset := byteAt buf 12 / 16
    let header_len := data_offset * 4
    if buf.length < header_len then
      Except.error (HeaderError.BufferTooSmall header_len buf.length)
    else
      let options := if 20 < header_len then (buf.drop 20).take (header_len - 20) else []
      let payload := if header_len < buf.length then buf.drop header_len else []
      if tcpChecksum (buf.take (header_len + payload.length)) iph ≠ 0 then
        Except.error (HeaderError.BadChecksum "TCP")
      else
        Except.ok
          { src_port := byteAt buf 0 * 256 + byteAt buf 1,
            dst_port := byteAt buf 2 * 256 + byteAt buf 3,
            seq_no := Wrap32.new (byteAt buf 4 * 16777216 + byteAt buf 5 * 65536 +
                                  byteAt buf 6 * 256 + byteAt buf 7),
            ack_no := Wrap32.new (byteAt buf 8 * 16777216 + byteAt buf 9 * 65536 +
                                  byteAt buf 10 * 256 + byteAt buf 11),
            data_offset := data_offset,
            reserved := byteAt buf 12 % 16,
            flags := TCPFlags.fromBitsTruncate (byteAt buf 13),
            window := byteAt buf 14 * 256 + byteAt buf 15,
            checksum := byteAt buf 16 * 256 + byteAt buf 17,
            urgent := byteAt buf 18 * 256 + byteAt buf 19,
            options := options,
            payload := payload }

/-- `tcp_over_ip::wrap`: serialize the IP header, then the TCP segment,
into one packet (the `vec![0; total]` + `wrap_into` pair: both serializers
completely fill their regions). -/
def wrapPacket (iph : IPHeader) (tcph : TCPHeader) : List Nat :=
  IPHeader.serialize iph ++ TCPHeader.serialize tcph iph

/-- `tcp_over_ip::unwrap`: parse 20 bytes of IP, then parse
`packet[20..total_len]` as TCP against the parsed IP header. -/
def unwrapPacket (packet : List Nat) : Except HeaderError (IPHeader × TCPHeader) :=
  match IPHeader.parse (packet.take 20) with
  | Except.error e => Except.error e
  | Except.ok iph =>
    match TCPHeader.parse ((packet.take iph.total_len).drop 20) iph with
    | Except.error e => Except.error e
    | Except.ok tcph => Except.ok (iph, tcph)

/-! ## TcpReceiver (`src/tcp/receiver.rs`)

The prototype receiver.  Its `ByteStream` is `src/tcp/byte_stream.rs`
(declared in `src/tcp/mod.rs`), which carries the same interface and
semantics as `src/conn/byte_stream.rs`, so the one embedding serves.
Errors (`io::Result` from the reassembler) cannot occur on the states the
theorems below evaluate, and the error flag is dropped as the Rust `?`
would propagate it. -/

structure TcpReceiver where
  isn : Wrap32
  reassembler : Reassembler
  advertised_window : Nat
  deriving Repr, DecidableEq

/-- `TcpReceiver::new(isn, capacity)`. -/
def TcpReceiver.new (isn : Wrap32) (capacity : Nat) : TcpReceiver :=
  { isn := isn, reassembler := Reassembler.new (ByteStream.new capacity),
    advertised_window := capacity }

/-- `TcpReceiver::receive_segment`: on SYN, a no-op insert and no data;
otherwise unwrap the sequence number against `next_byte_idx`, add one when
FIN is set (`abs_seq_no += 1`), insert the payload at that index, refresh
the advertised window, and drain any newly contiguous bytes. -/
def TcpReceiver.receive_segment (r : TcpReceiver) (tcph : TCPHeader) :
    TcpReceiver × Option (List Nat) :=
  if TCPFlags.contains tcph.flags TCPFlags.SYN then
    let ins := Reassembler.insert r.reassembler 0 [] false
    ({ r with reassembler := ins.1 }, none)
  else
    let checkpoint := r.reassembler.next_byte_idx
    let abs0 := Wrap32.unwrap tcph.seq_no r.isn checkpoint
    let is_last := TCPFlags.contains tcph.flags TCPFlags.FIN
    let abs_seq_no := if is_last then (abs0 + 1) % 18446744073709551616 else abs0
    let ins := Reassembler.insert r.reassembler abs_seq_no tcph.payload is_last
    let aw := ByteStream.remaining_capacity ins.1.output
    let rd := Reassembler.read_to_end ins.1
    ({ r with reassembler := rd.1, advertised_window := aw },
      if rd.2.isEmpty then none else some rd.2)

/-- `TcpReceiver::generate_ack`: `(Wrap32::new(next_byte_idx as u32),
advertised_window)`. -/
def TcpReceiver.generate_ack (r : TcpReceiver) : Wrap32 × Nat :=
  (Wrap32.new (r.reassembler.next_byte_idx % 4294967296), r.advertised_window)


/-! ## Derived predicates, reachability and concrete fixtures -/

/-- Distance between two naturals (`|a - b|`). -/
def natDist (a b : Nat) : Nat := max a b - min a b

/-- States of a `Reassembler` with a capacity-`cap` output stream that are
reachable by any sequence of `insert` and `read` operations. -/
inductive ReassemblerReachable (cap : Nat) : Reassembler → Prop where
  | init : ReassemblerReachable cap (Reassembler.new (ByteStream.new cap))
  | insert {r : Reassembler} (seq_num : Nat) (data : List Nat) (is_last : Bool) :
      ReassemblerReachable cap r →
      ReassemblerReachable cap (Reassembler.insert r seq_num data is_last).1
  | read {r : Reassembler} (n : Nat) :
      ReassemblerReachable cap r →
      ReassemblerReachable cap (Reassembler.read r n).1

/-- Structural invariant of a reassembler with a capacity-`cap` stream:
stream accounting is consistent, pending segments are disjoint, nonempty,
and lie inside the admission window
`[next_byte_idx, next_byte_idx + remaining_capacity)`. -/
def ReassemblerInv (cap : Nat) (r : Reassembler) : Prop :=
  r.output.capacity = cap ∧
  r.output.buffer.length ≤ cap ∧
  r.output.bytes_written = r.output.bytes_read + r.output.buffer.length ∧
  SegMap.DisjointSorted r.segments ∧
  (∀ p ∈ r.segments, p.2 ≠ [] ∧ r.next_byte_idx ≤ p.1 ∧
      p.1 + p.2.length ≤ r.next_byte_idx + (cap - r.output.buffer.length))

/-- Byte index `i` is accounted for by the reassembler: already committed,
or inside a pending segment. -/
def coveredIdx (r : Reassembler) (i : Nat) : Prop :=
  i < r.next_byte_idx ∨ ∃ p ∈ r.segments, p.1 ≤ i ∧ i < p.1 + p.2.length

/-- Faithfulness of a reassembler state to the source string `S` under a
no-reads, capacity-`cap ≥ |S|` regime: the stream holds exactly the
committed prefix of `S`, and every pending segment is the slice of `S` at
its key, strictly beyond `next_byte_idx`, ending within `S`. -/
def ReassemblerGood (S : List Nat) (cap : Nat) (r : Reassembler) : Prop :=
  r.output.capacity = cap ∧
  r.output.bytes_read = 0 ∧
  r.output.buffer = S.take r.next_byte_idx ∧
  r.output.bytes_written = r.next_byte_idx ∧
  r.next_byte_idx ≤ S.length ∧
  SegMap.DisjointSorted r.segments ∧
  (∀ p ∈ r.segments, p.2 ≠ [] ∧ r.next_byte_idx < p.1 ∧ p.1 + p.2.length ≤ S.length ∧
      p.2 = listSlice S p.1 (p.1 + p.2.length)) ∧
  (r.last_byte_idx = none ∨ r.last_byte_idx = some S.length) ∧
  (r.last_recvd = true → r.last_byte_idx = some S.length) ∧
  (r.output.closed = true → r.next_byte_idx = S.length)


/-- Weakening of `ReassemblerGood` that holds between `insert_buffer` and
`try_write`: a pending segment may start exactly at `next_byte_idx`
(`try_write` is about to commit it). -/
def ReassemblerPreGood (S : List Nat) (cap : Nat) (r : Reassembler) : Prop :=
  r.output.capacity = cap ∧
  r.output.bytes_read = 0 ∧
  r.output.buffer = S.take r.next_byte_idx ∧
  r.output.bytes_written = r.next_byte_idx ∧
  r.next_byte_idx ≤ S.length ∧
  SegMap.DisjointSorted r.segments ∧
  (∀ p ∈ r.segments, p.2 ≠ [] ∧ r.next_byte_idx ≤ p.1 ∧ p.1 + p.2.length ≤ S.length ∧
      p.2 = listSlice S p.1 (p.1 + p.2.length)) ∧
  (r.last_byte_idx = none ∨ r.last_byte_idx = some S.length) ∧
  (r.last_recvd = true → r.last_byte_idx = some S.length) ∧
  (r.output.closed = true → r.next_byte_idx = S.length)

/-- Run a list of insertions of slices of `S`: each operation
`(first_index, len, is_last)` inserts `S[first_index .. first_index+len]`.
The `Bool` accumulates whether any insert reported an error. -/
def runInserts (S : List Nat) (init : Reassembler) (ops : List (Nat × Nat × Bool)) :
    Reassembler × Bool :=
  ops.foldl
    (fun acc op =>
      let res := Reassembler.insert acc.1 op.1 (listSlice S op.1 (op.1 + op.2.1)) op.2.2
      (res.1, acc.2 || res.2))
    (init, false)

/-- Field ranges of an `IPHeader` as enforced by the Rust `u8`/`u16`
types and the bitflags representation (`flags` only bits 15/14/13,
`frag_offset` 13 bits). -/
def IPHeader.FieldsInRange (h : IPHeader) : Prop :=
  h.version < 16 ∧ h.ihl < 16 ∧ h.tos < 256 ∧ h.total_len < 65536 ∧ h.id < 65536 ∧
  h.flags < 65536 ∧ h.flags % 8192 = 0 ∧ h.frag_offset < 8192 ∧
  h.ttl < 256 ∧ h.protocol < 256 ∧
  h.src_ip.o0 < 256 ∧ h.src_ip.o1 < 256 ∧ h.src_ip.o2 < 256 ∧ h.src_ip.o3 < 256 ∧
  h.dst_ip.o0 < 256 ∧ h.dst_ip.o1 < 256 ∧ h.dst_ip.o2 < 256 ∧ h.dst_ip.o3 < 256

/-- The checksum `IPHeader::serialize` actually stores. -/
def IPHeader.trueChecksum (h : IPHeader) : Nat :=
  ipChecksum (IPHeader.serializeWith h 0)

/-- The zero-checksum word sum of a serialized header folds once without a
second carry.  `IPHeader::checksum` folds only once, so round-trips are
exact precisely under this condition. -/
def IPHeader.NoDoubleCarry (h : IPHeader) : Prop :=
  let s := ipWords (IPHeader.serializeWith h 0)
  s % 65536 + s / 65536 ≤ 65535

/-- Field ranges of a `TCPHeader` (Rust `u8`/`u16`/`u32` typing plus
byte-valued options and payload). -/
def TCPHeader.FieldsInRange (t : TCPHeader) : Prop :=
  t.src_port < 65536 ∧ t.dst_port < 65536 ∧
  t.seq_no.value < 4294967296 ∧ t.ack_no.value < 4294967296 ∧
  t.data_offset < 16 ∧ t.reserved < 16 ∧ t.flags < 256 ∧
  t.window < 65536 ∧ t.urgent < 65536 ∧
  (∀ b ∈ t.options, b < 256) ∧ (∀ b ∈ t.payload, b < 256)

/-- The well-formedness the specification demands of a header pair:
options length a multiple of 4, `data_offset = 5 + options.len()/4`, and
`total_len` derived consistently. -/
def WellFormedPair (iph : IPHeader) (tcph : TCPHeader) : Prop :=
  tcph.options.length % 4 = 0 ∧
  tcph.data_offset = 5 + tcph.options.length / 4 ∧
  iph.total_len = 20 + tcph.data_offset * 4 + tcph.payload.length

/-- The checksum `TCPHeader::serialize` actually stores. -/
def TCPHeader.trueChecksum (t : TCPHeader) (iph : IPHeader) : Nat :=
  tcpChecksum (TCPHeader.serializeWith t 0) iph

/-- Single-fold exactness for the TCP checksum of the zero-checksum
serialization. -/
def TCPHeader.NoDoubleCarry (t : TCPHeader) (iph : IPHeader) : Prop :=
  let s := tcpSum (TCPHeader.serializeWith t 0) iph
  s % 65536 + s / 65536 ≤ 65535

/-- The IPv4 header of the repository's own round-trip unit test
(`test_ip_header_to_bytes`). -/
def ipTestHeader : IPHeader :=
  { version := 4, ihl := 5, tos := 0, total_len := 64, id := 0,
    flags := 16384, frag_offset := 0, ttl := 64, protocol := 6,
    checksum := 54134,
    src_ip := ⟨10, 110, 208, 106⟩, dst_ip := ⟨204, 44, 192, 60⟩ }

/-- A well-formed (in the specification's sense) header pair whose stored
checksum fields are zero: options empty, `data_offset = 5`, odd one-byte
payload, `total_len = 41`. -/
def ipCexHeader : IPHeader :=
  { version := 4, ihl := 5, tos := 0, total_len := 41, id := 7,
    flags := 16384, frag_offset := 0, ttl := 64, protocol := 6,
    checksum := 0,
    src_ip := ⟨1, 2, 3, 4⟩, dst_ip := ⟨5, 6, 7, 8⟩ }

/-- TCP side of the zero-checksum counterexample pair. -/
def tcpCexHeader : TCPHeader :=
  { src_port := 80, dst_port := 1234,
    seq_no := Wrap32.new 11, ack_no := Wrap32.new 22,
    data_offset := 5, reserved := 0, flags := 16, window := 100,
    checksum := 0, urgent := 0, options := [], payload := [97] }

/-- A non-SYN TCP segment with one payload byte at sequence number 1
(the first data byte after a SYN with `isn = 0`). -/
def cexSegment1 : TCPHeader :=
  { src_port := 0, dst_port := 0,
    seq_no := Wrap32.new 1, ack_no := Wrap32.new 0,
    data_offset := 5, reserved := 0, flags := 16, window := 0,
    checksum := 0, urgent := 0, options := [], payload := [97] }

/-- The same segment with FIN also set. -/
def cexSegment2 : TCPHeader :=
  { src_port := 0, dst_port := 0,
    seq_no := Wrap32.new 1, ack_no := Wrap32.new 0,
    data_offset := 5, reserved := 0, flags := 17, window := 0,
    checksum := 0, urgent := 0, options := [], payload := [97] }


attribute [ext] Ipv4Addr IPHeader Wrap32 TCPHeader

deriving instance DecidableEq for Except

instance (h : IPHeader) : Decidable (IPHeader.FieldsInRange h) := by
  unfold IPHeader.FieldsInRange
  infer_instance

instance (t : TCPHeader) : Decidable (TCPHeader.FieldsInRange t) := by
  unfold TCPHeader.FieldsInRange
  infer_instance

instance (iph : IPHeader) (tcph : TCPHeader) :
    Decidable (WellFormedPair iph tcph) := by
  unfold WellFormedPair
  infer_instance

instance (h : IPHeader) : Decidable (IPHeader.NoDoubleCarry h) := by
  unfold IPHeader.NoDoubleCarry
  infer_instance

instance (t : TCPHeader) (iph : IPHeader) :
    Decidable (TCPHeader.NoDoubleCarry t iph) := by
  unfold TCPHeader.NoDoubleCarry
  infer_instance

/-- The counterexample pair with the correct checksums stored. -/
def ipRtHeader : IPHeader :=
  { version := 4, ihl := 5, tos := 0, total_len := 41, id := 7,
    flags := 16384, frag_offset := 0, ttl := 64, protocol := 6,
    checksum := 10933,
    src_ip := ⟨1, 2, 3, 4⟩, dst_ip := ⟨5, 6, 7, 8⟩ }

/-- TCP side of the round-trip witness pair (odd one-byte payload). -/
def tcpRtHeader : TCPHeader :=
  { src_port := 80, dst_port := 1234,
    seq_no := Wrap32.new 11, ack_no := Wrap32.new 22,
    data_offset := 5, reserved := 0, flags := 16, window := 100,
    checksum := 14617, urgent := 0, options := [], payload := [97] }

/-! ## Theorems and supporting lemmas -/

theorem listSlice_length {l : List Nat} {a b : Nat} (hb : b ≤ l.length) (hab : a ≤ b) :
    (listSlice l a b).length = b - a := by
  simp [listSlice]
  omega

theorem listSlice_getD {l : List Nat} {a b j : Nat} (hj : j < b - a) (hb : b ≤ l.length) :
    (listSlice l a b).getD j 0 = l.getD (a + j) 0 := by
  unfold listSlice
  have h2 : a + j < l.length := by omega
  rw [List.getD_eq_getElem _ _ (by simp [List.length_take]; omega)]
  rw [List.getElem_take, List.getElem_drop]
  rw [List.getD_eq_getElem _ _ h2]

theorem listOverlay_length {dst : List Nat} {i : Nat} {src : List Nat}
    (h : i + src.length ≤ dst.length) :
    (listOverlay dst i src).length = dst.length := by
  simp [listOverlay]
  omega

theorem listOverlay_getD_left {dst : List Nat} {i : Nat} {src : List Nat} {j : Nat}
    (hj : j < i) (h : i ≤ dst.length) :
    (listOverlay dst i src).getD j 0 = dst.getD j 0 := by
  unfold listOverlay
  have h1 : j < (dst.take i).length := by simp; omega
  rw [List.append_assoc]
  rw [List.getD_eq_getElem _ _ (by simp; omega)]
  rw [List.getElem_append_left h1, List.getElem_take]
  rw [List.getD_eq_getElem _ _ (by omega)]

theorem listOverlay_getD_mid {dst : List Nat} {i : Nat} {src : List Nat} {j : Nat}
    (h1 : i ≤ j) (h2 : j < i + src.length) (h : i + src.length ≤ dst.length) :
    (listOverlay dst i src).getD j 0 = src.getD (j - i) 0 := by
  unfold listOverlay
  have hti : (dst.take i).length = i := by simp; omega
  rw [List.append_assoc]
  rw [List.getD_eq_getElem _ _ (by simp; omega)]
  rw [List.getElem_append_right (by omega)]
  have hj2 : j - (dst.take i).length < src.length := by omega
  rw [List.getElem_append_left hj2]
  rw [List.getD_eq_getElem _ _ (by omega)]
  congr 1
  omega

theorem listOverlay_getD_right {dst : List Nat} {i : Nat} {src : List Nat} {j : Nat}
    (h2 : i + src.length ≤ j) (h : i + src.length ≤ dst.length) :
    (listOverlay dst i src).getD j 0 = dst.getD j 0 := by
  unfold listOverlay
  by_cases hj : j < dst.length
  · have hti : (dst.take i).length = i := by simp; omega
    rw [List.append_assoc]
    rw [List.getD_eq_getElem _ _ (by simp; omega)]
    rw [List.getElem_append_right (by simp; omega)]
    rw [List.getD_eq_getElem _ _ hj]
    rw [List.getElem_append_right (by simp; omega)]
    rw [List.getElem_drop]
    congr 1
    simp
    omega
  · rw [List.getD_eq_default _ _ (by simp; omega), List.getD_eq_default _ _ (by omega)]

theorem listResize_length_of_le {l : List Nat} {n z : Nat} (h : l.length ≤ n) :
    (listResize l n z).length = n := by
  unfold listResize
  by_cases hn : n ≤ l.length
  · rw [if_pos hn]
    simp
    omega
  · rw [if_neg hn]
    simp
    omega

theorem listResize_getD_left {l : List Nat} {n z j : Nat} (hj : j < l.length)
    (h : l.length ≤ n) :
    (listResize l n z).getD j 0 = l.getD j 0 := by
  unfold listResize
  by_cases hn : n ≤ l.length
  · rw [if_pos hn]
    rw [List.getD_eq_getElem _ _ (by simp; omega), List.getElem_take,
      List.getD_eq_getElem _ _ hj]
  · rw [if_neg hn]
    rw [List.getD_eq_getElem _ _ (by simp; omega), List.getElem_append_left hj,
      List.getD_eq_getElem _ _ hj]

/-- Pointwise-`getD` extensionality for lists of equal length. -/
theorem list_ext_getD {l₁ l₂ : List Nat} (hlen : l₁.length = l₂.length)
    (h : ∀ j, j < l₁.length → l₁.getD j 0 = l₂.getD j 0) : l₁ = l₂ := by
  apply List.ext_getElem hlen
  intro i h1 h2
  have := h i h1
  rwa [List.getD_eq_getElem _ _ h1, List.getD_eq_getElem _ _ h2] at this

theorem SegMap.sortedKeys_of_disjointSorted {m : SegMap}
    (hd : SegMap.DisjointSorted m) (hne : ∀ p ∈ m, p.2 ≠ []) : SegMap.SortedKeys m := by
  induction m with
  | nil => exact List.Pairwise.nil
  | cons a t ih =>
    rcases List.pairwise_cons.mp hd with ⟨ha, ht⟩
    refine List.Pairwise.cons ?_ (ih ht (fun p hp => hne p (List.mem_cons_of_mem _ hp)))
    intro b hb
    have h1 := ha b hb
    have h2 : a.2 ≠ [] := hne a (List.mem_cons_self _ _)
    have : 0 < a.2.length := List.length_pos.mpr h2
    omega

theorem SegMap.erase_sublist (m : SegMap) (k : Nat) : (SegMap.erase m k).Sublist m := by
  induction m with
  | nil => exact List.Sublist.refl _
  | cons a t ih =>
    unfold SegMap.erase
    by_cases h : k = a.1
    · rw [if_pos h]
      exact List.sublist_cons_self a t
    · rw [if_neg h]
      exact List.Sublist.cons₂ a ih

theorem SegMap.mem_erase_of_mem {m : SegMap} {k : Nat} {p : Nat × List Nat}
    (hp : p ∈ m) (hk : p.1 ≠ k) : p ∈ SegMap.erase m k := by
  induction m with
  | nil => cases hp
  | cons a t ih =>
    unfold SegMap.erase
    rcases List.mem_cons.mp hp with h | h
    · subst h
      simp [Ne.symm hk]
    · by_cases he : k = a.1
      · simpa [he] using h
      · simpa [he] using Or.inr (ih h)

theorem SegMap.mem_of_mem_erase {m : SegMap} {k : Nat} {p : Nat × List Nat}
    (hp : p ∈ SegMap.erase m k) : p ∈ m :=
  (SegMap.erase_sublist m k).mem hp

theorem SegMap.disjointSorted_erase {m : SegMap} (hd : SegMap.DisjointSorted m) (k : Nat) :
    SegMap.DisjointSorted (SegMap.erase m k) :=
  List.Pairwise.sublist (SegMap.erase_sublist m k) hd

theorem SegMap.key_ne_of_mem_erase {m : SegMap} (hs : SegMap.SortedKeys m) {k : Nat}
    {p : Nat × List Nat} (hp : p ∈ SegMap.erase m k) : p.1 ≠ k := by
  induction m with
  | nil => cases hp
  | cons a t ih =>
    rcases List.pairwise_cons.mp hs with ⟨ha, ht⟩
    unfold SegMap.erase at hp
    by_cases he : k = a.1
    · simp only [if_pos he] at hp
      have := ha p hp
      omega
    · simp only [if_neg he] at hp
      rcases List.mem_cons.mp hp with h | h
      · subst h; exact fun hc => he hc.symm
      · exact ih ht h

theorem SegMap.find?_eq_some_of_mem {m : SegMap} (hs : SegMap.SortedKeys m)
    {k : Nat} {v : List Nat} (h : (k, v) ∈ m) : SegMap.find? m k = some v := by
  induction m with
  | nil => cases h
  | cons a t ih =>
    rcases List.pairwise_cons.mp hs with ⟨ha, ht⟩
    unfold SegMap.find?
    rcases List.mem_cons.mp h with h1 | h1
    · rw [show a = (k, v) from h1.symm]
      simp
    · have hne : k ≠ a.1 := by
        have := ha _ h1
        simp at this
        omega
      simp only [if_neg hne]
      exact ih ht h1

theorem SegMap.mem_of_find?_eq_some {m : SegMap} {k : Nat} {v : List Nat}
    (h : SegMap.find? m k = some v) : (k, v) ∈ m := by
  induction m with
  | nil => simp [SegMap.find?] at h
  | cons a t ih =>
    unfold SegMap.find? at h
    by_cases he : k = a.1
    · simp only [if_pos he] at h
      cases h
      subst he
      exact List.mem_cons_self _ _
    · simp only [if_neg he] at h
      exact List.mem_cons_of_mem _ (ih h)

theorem SegMap.find?_eq_none {m : SegMap} {k : Nat} (h : ∀ p ∈ m, p.1 ≠ k) :
    SegMap.find? m k = none := by
  induction m with
  | nil => rfl
  | cons a t ih =>
    unfold SegMap.find?
    have hne : k ≠ a.1 := fun hc => (h a (List.mem_cons_self _ _)) hc.symm
    simp only [if_neg hne]
    exact ih (fun p hp => h p (List.mem_cons_of_mem _ hp))

theorem SegMap.length_erase_lt {m : SegMap} {k : Nat} {v : List Nat}
    (h : SegMap.find? m k = some v) : (SegMap.erase m k).length < m.length := by
  induction m with
  | nil => simp [SegMap.find?] at h
  | cons a t ih =>
    unfold SegMap.find? at h
    unfold SegMap.erase
    by_cases he : k = a.1
    · simp [he]
    · simp only [if_neg he] at h ⊢
      have := ih h
      simpa using this

theorem SegMap.mem_insert_self (m : SegMap) (k : Nat) (v : List Nat) :
    (k, v) ∈ SegMap.insert m k v := by
  induction m with
  | nil => simp [SegMap.insert]
  | cons a t ih =>
    unfold SegMap.insert
    by_cases h1 : k < a.1
    · simp [h1]
    · by_cases h2 : k = a.1
      · simp [h1, h2]
      · simp only [if_neg h1, if_neg h2]
        exact List.mem_cons_of_mem _ ih

theorem SegMap.mem_insert_of_mem {m : SegMap} {p : Nat × List Nat} {k : Nat}
    (hp : p ∈ m) (hk : p.1 ≠ k) (v : List Nat) : p ∈ SegMap.insert m k v := by
  induction m with
  | nil => cases hp
  | cons a t ih =>
    unfold SegMap.insert
    by_cases h1 : k < a.1
    · simpa [h1] using Or.inr hp
    · by_cases h2 : k = a.1
      · simp only [if_neg h1, if_pos h2]
        rcases List.mem_cons.mp hp with h | h
        · exfalso; apply hk; rw [h, h2]
        · exact List.mem_cons_of_mem _ h
      · simp only [if_neg h1, if_neg h2]
        rcases List.mem_cons.mp hp with h | h
        · rw [h]; exact List.mem_cons_self _ _
        · exact List.mem_cons_of_mem _ (ih h)

theorem SegMap.mem_insert_elim {m : SegMap} {p : Nat × List Nat} {k : Nat} {v : List Nat}
    (hp : p ∈ SegMap.insert m k v) : p = (k, v) ∨ p ∈ m := by
  induction m with
  | nil => simpa [SegMap.insert] using hp
  | cons a t ih =>
    unfold SegMap.insert at hp
    by_cases h1 : k < a.1
    · simp only [if_pos h1] at hp
      rcases List.mem_cons.mp hp with h | h
      · exact Or.inl h
      · exact Or.inr h
    · by_cases h2 : k = a.1
      · simp only [if_neg h1, if_pos h2] at hp
        rcases List.mem_cons.mp hp with h | h
        · exact Or.inl h
        · exact Or.inr (List.mem_cons_of_mem _ h)
      · simp only [if_neg h1, if_neg h2] at hp
        rcases List.mem_cons.mp hp with h | h
        · rw [h]; exact Or.inr (List.mem_cons_self _ _)
        · rcases ih h with h3 | h3
          · exact Or.inl h3
          · exact Or.inr (List.mem_cons_of_mem _ h3)

/-- Inserting an entry that is range-disjoint from every stored entry
preserves the disjoint-sorted invariant. -/
theorem SegMap.disjointSorted_insert {m : SegMap} (hd : SegMap.DisjointSorted m)
    (hne : ∀ p ∈ m, p.2 ≠ []) {k : Nat} {v : List Nat}
    (h : ∀ p ∈ m, (p.1 < k → p.1 + p.2.length ≤ k) ∧ (k < p.1 → k + v.length ≤ p.1)) :
    SegMap.DisjointSorted (SegMap.insert m k v) := by
  induction m with
  | nil => simp [SegMap.insert, SegMap.DisjointSorted]
  | cons a t ih =>
    rcases List.pairwise_cons.mp hd with ⟨ha, ht⟩
    have hasp := h a (List.mem_cons_self _ _)
    have hane : 0 < a.2.length :=
      List.length_pos.mpr (hne a (List.mem_cons_self _ _))
    unfold SegMap.insert
    by_cases h1 : k < a.1
    · simp only [if_pos h1]
      refine List.Pairwise.cons ?_ (List.Pairwise.cons ha ht)
      intro b hb
      show k + v.length ≤ b.1
      rcases List.mem_cons.mp hb with hb1 | hb1
      · subst hb1; exact hasp.2 h1
      · have h2 := ha b hb1
        have h3 := hasp.2 h1
        omega
    · by_cases h2 : k = a.1
      · simp only [if_neg h1, if_pos h2]
        refine List.Pairwise.cons ?_ ht
        intro b hb
        have hb2 := h b (List.mem_cons_of_mem _ hb)
        have h3 := ha b hb
        show k + v.length ≤ b.1
        by_cases hc : b.1 < k
        · have h4 := hb2.1 hc
          omega
        · have hk : k < b.1 := by omega
          exact hb2.2 hk
      · simp only [if_neg h1, if_neg h2]
        refine List.Pairwise.cons ?_
          (ih ht (fun p hp => hne p (List.mem_cons_of_mem _ hp))
            (fun p hp => h p (List.mem_cons_of_mem _ hp)))
        intro b hb
        show a.1 + a.2.length ≤ b.1
        rcases SegMap.mem_insert_elim hb with hb1 | hb1
        · subst hb1
          have hak : a.1 < k := by omega
          exact hasp.1 hak
        · exact ha b hb1

/-- Sum of stored segment lengths of a disjoint map whose ranges all lie in
`[lo, hi)` is at most `hi - lo`. -/
theorem SegMap.pending_le {m : SegMap} (hd : SegMap.DisjointSorted m) (lo hi : Nat)
    (h : ∀ p ∈ m, lo ≤ p.1 ∧ p.1 + p.2.length ≤ hi) :
    (m.map (fun p => p.2.length)).sum ≤ hi - lo := by
  induction m generalizing lo with
  | nil => simp
  | cons a t ih =>
    rcases List.pairwise_cons.mp hd with ⟨ha, ht⟩
    have haa := h a (List.mem_cons_self _ _)
    have hrec : ∀ p ∈ t, a.1 + a.2.length ≤ p.1 ∧ p.1 + p.2.length ≤ hi := by
      intro p hp
      exact ⟨ha p hp, (h p (List.mem_cons_of_mem _ hp)).2⟩
    have := ih ht (a.1 + a.2.length) hrec
    simp only [List.map_cons, List.sum_cons]
    omega


/-! ### Wrap32 claims -/

/-- Claim C3: for every `isn`, every `n ∈ [0, 2^63)`, and every
`checkpoint ∈ [n - 2^31, n + 2^31)`,
`Wrap32::wrap(n, isn).unwrap(isn, checkpoint) = n` (in particular with
`checkpoint = n`). -/
theorem wrap32_roundtrip (isn n checkpoint : Nat)
    (hn : n < 9223372036854775808)
    (hlo : n ≤ checkpoint + 2147483648)
    (hhi : checkpoint < n + 2147483648) :
    Wrap32.unwrap (Wrap32.wrap n (Wrap32.new isn)) (Wrap32.new isn) checkpoint = n := by
  simp only [Wrap32.unwrap, Wrap32.wrap, Wrap32.new]
  omega

/-- Witness for C3 at the repository's own test point
(`isn = 0`, `n = 3·2^32 - 11`, `checkpoint = 3·2^32`), and at
`checkpoint = n` itself. -/
theorem wrap32_roundtrip_witness :
    12884901877 < 9223372036854775808 ∧
    12884901877 ≤ 12884901888 + 2147483648 ∧
    12884901888 < 12884901877 + 2147483648 ∧
    Wrap32.unwrap (Wrap32.wrap 12884901877 (Wrap32.new 0)) (Wrap32.new 0) 12884901888 =
      12884901877 ∧
    Wrap32.unwrap (Wrap32.wrap 12884901877 (Wrap32.new 0)) (Wrap32.new 0) 12884901877 =
      12884901877 :=
  ⟨by decide, by decide, by decide,
    wrap32_roundtrip 0 12884901877 12884901888 (by decide) (by decide) (by decide),
    wrap32_roundtrip 0 12884901877 12884901877 (by decide) (by decide) (by decide)⟩

/-- Counterexample for C4 as stated: with `value = isn = 0` and
`checkpoint = 2^64 - 2^31`, the `u64` addition `checkpoint + 2^31` wraps,
`unwrap` returns `0`, yet the candidate `(2^32 - 1)·2^32` also wraps to the
value and is strictly closer to the checkpoint (distance `2^31` versus
`2^64 - 2^31`), so the returned index does not minimize
`|a - checkpoint|`. -/
theorem wrap32_unwrap_nearest_cex :
    Wrap32.unwrap (Wrap32.new 0) (Wrap32.new 0) 18446744071562067968 = 0 ∧
    Wrap32.wrap 18446744069414584320 (Wrap32.new 0) = Wrap32.new 0 ∧
    18446744069414584320 < 18446744073709551616 ∧
    natDist 18446744069414584320 18446744071562067968 <
      natDist 0 18446744071562067968 := by
  refine ⟨by decide, by decide, by decide, by decide⟩

/-- Claim C4 (amended): whenever `checkpoint + 2^31` does not overflow
`u64`, `unwrap(value, isn, checkpoint)` is a 64-bit index that wraps back
to `value` and, among all 64-bit candidates congruent to `value - isn`
mod `2^32`, minimizes the distance to `checkpoint`, ties broken toward the
larger candidate.  (For `checkpoint ≥ 2^64 - 2^31` the `u64` addition
wraps and the property fails, per the counterexample.) -/
theorem wrap32_unwrap_nearest (v i checkpoint : Nat)
    (_hv : v < 4294967296)
    (hcp : checkpoint + 2147483648 < 18446744073709551616) :
    Wrap32.wrap (Wrap32.unwrap (Wrap32.new v) (Wrap32.new i) checkpoint)
        (Wrap32.new i) = Wrap32.new v ∧
    Wrap32.unwrap (Wrap32.new v) (Wrap32.new i) checkpoint < 18446744073709551616 ∧
    (∀ a, a < 18446744073709551616 →
      Wrap32.wrap a (Wrap32.new i) = Wrap32.new v →
      (natDist (Wrap32.unwrap (Wrap32.new v) (Wrap32.new i) checkpoint) checkpoint <
          natDist a checkpoint ∨
        (natDist (Wrap32.unwrap (Wrap32.new v) (Wrap32.new i) checkpoint) checkpoint =
            natDist a checkpoint ∧
          a ≤ Wrap32.unwrap (Wrap32.new v) (Wrap32.new i) checkpoint))) := by
  refine ⟨?_, ?_, ?_⟩
  · simp only [Wrap32.unwrap, Wrap32.wrap, Wrap32.new, Wrap32.mk.injEq]
    omega
  · simp only [Wrap32.unwrap, Wrap32.new]
    omega
  · intro a ha hwa
    simp only [Wrap32.wrap, Wrap32.new, Wrap32.mk.injEq] at hwa
    simp only [Wrap32.unwrap, Wrap32.new, natDist]
    omega

/-- Witness for the amended C4 at `value = u32::MAX = 4294967295`,
`isn = 10`, `checkpoint = 3·2^32` (the repository's
`test_unwrap_with_nonzero_isn` point, whose unwrap equals `3·2^32 - 11`):
the returned index wraps back to the value and beats the one-wrap-higher
competitor `a = 3·2^32 - 11 + 2^32`. -/
theorem wrap32_unwrap_nearest_witness :
    Wrap32.wrap (Wrap32.unwrap (Wrap32.new 4294967295) (Wrap32.new 10) 12884901888)
        (Wrap32.new 10) = Wrap32.new 4294967295 ∧
    (natDist (Wrap32.unwrap (Wrap32.new 4294967295) (Wrap32.new 10) 12884901888)
        12884901888 <
        natDist 17179869173 12884901888 ∨
      (natDist (Wrap32.unwrap (Wrap32.new 4294967295) (Wrap32.new 10) 12884901888)
          12884901888 =
          natDist 17179869173 12884901888 ∧
        17179869173 ≤ Wrap32.unwrap (Wrap32.new 4294967295) (Wrap32.new 10) 12884901888)) := by
  have h := wrap32_unwrap_nearest 4294967295 10 12884901888 (by decide) (by decide)
  exact ⟨h.1, h.2.2 17179869173 (by decide) (by decide)⟩

/-! ### IPv4 checksum claims -/

/-- Unfolding equation for `ipChecksum`. -/
theorem ipChecksum_eq (data : List Nat) :
    ipChecksum data =
      65535 - ((ipWords data % 4294967296) % 65536 +
        (ipWords data % 4294967296) / 65536) % 65536 := rfl

/-- The serialized header's word sum is the zero-checksum word sum plus the
stored checksum (the checksum word sits at the aligned offset 10). -/
theorem ipWords_serializeWith (h : IPHeader) (ck : Nat) :
    ipWords (IPHeader.serializeWith h ck) =
      ipWords (IPHeader.serializeWith h 0) + u16 ck := by
  simp only [IPHeader.serializeWith, ipWords, u8, u16]
  omega

/-- Ten byte-valued big-endian words sum to at most `10 · 65535`. -/
theorem ipWords_serializeWith_le (h : IPHeader) (ck : Nat) :
    ipWords (IPHeader.serializeWith h ck) ≤ 655350 := by
  simp only [IPHeader.serializeWith, ipWords, u8, u16]
  omega

/-- Counterexample for C8 as stated: on the repository's own test header,
`IPHeader::checksum` applied to the 20 serialized bytes yields `0`, not
`0xFFFF` (the function complements the folded sum, so a valid header sums
to `0`). -/
theorem ip_checksum_serialize_cex :
    ipChecksum (IPHeader.serialize ipTestHeader) = 0 ∧
    ipChecksum (IPHeader.serialize ipTestHeader) ≠ 65535 := by
  refine ⟨by decide, by decide⟩

/-- Claim C8 (amended): for every IPv4 header whose zero-checksum word sum
does not carry a second time in the single fold, applying
`IPHeader::checksum` to the 20 serialized bytes (which carry the stored
checksum at offset 10) yields `0`, and the once-folded one's-complement sum
of those 20 bytes equals `0xFFFF`.  (The claim's value `0xFFFF` is what the
folded sum equals; the checksum function returns its complement `0`.  The
single fold is exact only under the no-double-carry condition, which a
20-byte sum can violate for adversarial field values.) -/
theorem ip_checksum_serialize (h : IPHeader)
    (hnc : ipWords (IPHeader.serializeWith h 0) % 65536 +
        ipWords (IPHeader.serializeWith h 0) / 65536 ≤ 65535) :
    ipChecksum (IPHeader.serialize h) = 0 ∧
    ipWords (IPHeader.serialize h) % 65536 + ipWords (IPHeader.serialize h) / 65536 =
      65535 := by
  have h1 := ipWords_serializeWith h (ipChecksum (IPHeader.serializeWith h 0))
  have h2 := ipWords_serializeWith_le h 0
  obtain ⟨q, r, hqr, hrlt, hq10⟩ :
      ∃ q r, ipWords (IPHeader.serializeWith h 0) = 65536 * q + r ∧ r < 65536 ∧ q ≤ 10 :=
    ⟨ipWords (IPHeader.serializeWith h 0) / 65536,
      ipWords (IPHeader.serializeWith h 0) % 65536, by omega, by omega, by omega⟩
  have hrq : r + q ≤ 65535 := by
    rw [hqr] at hnc
    omega
  have hmq : (65536 * q + r) % 4294967296 = 65536 * q + r := Nat.mod_eq_of_lt (by omega)
  have hm2 : (65536 * q + r) % 65536 = r := by omega
  have hm3 : (65536 * q + r) / 65536 = q := by omega
  have hm4 : (r + q) % 65536 = r + q := Nat.mod_eq_of_lt (by omega)
  have hc : ipChecksum (IPHeader.serializeWith h 0) = 65535 - (r + q) := by
    rw [ipChecksum_eq, hqr, hmq, hm2, hm3, hm4]
  rw [hc] at h1
  have hcu : u16 (65535 - (r + q)) = 65535 - (r + q) := by
    simp only [u16]; omega
  rw [hcu, hqr] at h1
  unfold IPHeader.serialize
  rw [hc, ipChecksum_eq, h1]
  have hmod : (65536 * q + r + (65535 - (r + q))) % 4294967296 =
      65536 * q + r + (65535 - (r + q)) := Nat.mod_eq_of_lt (by omega)
  have hA : (65536 * q + r + (65535 - (r + q))) % 65536 = 65535 - q := by omega
  have hB : (65536 * q + r + (65535 - (r + q))) / 65536 = q := by omega
  rw [hmod, hA, hB]
  omega

/-- Witness for the amended C8 at the repository's test header (whose
stored checksum the unit test pins to `54134`). -/
theorem ip_checksum_serialize_witness :
    ipWords (IPHeader.serializeWith ipTestHeader 0) % 65536 +
        ipWords (IPHeader.serializeWith ipTestHeader 0) / 65536 ≤ 65535 ∧
    ipChecksum (IPHeader.serialize ipTestHeader) = 0 ∧
    ipWords (IPHeader.serialize ipTestHeader) % 65536 +
        ipWords (IPHeader.serialize ipTestHeader) / 65536 = 65535 :=
  ⟨by decide, ip_checksum_serialize ipTestHeader (by decide)⟩

/-! ### IPHeader::parse error behaviour (C10) -/

/-- Claim C10: `IPHeader::parse` fails with `BufferTooSmall` exactly on
buffers shorter than 20 bytes, with `BadChecksum("IP")` exactly when the
one's-complement checksum over the first 20 bytes does not verify, and
succeeds on every other buffer — no validation of the version, ihl, or
protocol fields is performed. -/
theorem ip_parse_spec (buf : List Nat) :
    (buf.length < 20 →
      IPHeader.parse buf = Except.error (HeaderError.BufferTooSmall 20 buf.length)) ∧
    (20 ≤ buf.length → ipChecksum (buf.take 20) ≠ 0 →
      IPHeader.parse buf = Except.error (HeaderError.BadChecksum "IP")) ∧
    (20 ≤ buf.length → ipChecksum (buf.take 20) = 0 →
      ∃ hdr, IPHeader.parse buf = Except.ok hdr) := by
  unfold IPHeader.parse
  refine ⟨?_, ?_, ?_⟩
  · intro h
    rw [if_pos h]
  · intro h1 h2
    rw [if_neg (by omega), if_pos h2]
  · intro h1 h2
    rw [if_neg (by omega), if_neg (fun hc => hc h2)]
    exact ⟨_, rfl⟩

/-- Witness for C10: a 19-byte buffer is rejected as too small, a corrupted
serialized test header is rejected as a bad checksum, and a buffer with
version 9, ihl 7 and protocol 200 whose checksum verifies is accepted
(no version/ihl/protocol validation). -/
theorem ip_parse_spec_witness :
    IPHeader.parse (List.replicate 19 0) =
      Except.error (HeaderError.BufferTooSmall 20 19) ∧
    IPHeader.parse (255 :: (IPHeader.serialize ipTestHeader).drop 1) =
      Except.error (HeaderError.BadChecksum "IP") ∧
    (∃ hdr, IPHeader.parse
        [151, 0, 0, 40, 0, 0, 0, 0, 64, 200, 23, 251, 1, 2, 3, 4, 5, 6, 7, 8] =
      Except.ok hdr) :=
  ⟨(ip_parse_spec _).1 (by decide),
    (ip_parse_spec _).2.1 (by decide) (by decide),
    (ip_parse_spec _).2.2 (by decide) (by decide)⟩

/-! ### TcpReceiver claims (C5, C6) -/

/-- Claim C5 (code bug): the receiver hands the payload to the reassembler
at `unwrap(seq_no, isn, next_byte_idx)` — not at `unwrap(...) - 1` as the
specification states — and when FIN is set it additionally shifts the
payload's insertion index by one (`abs_seq_no += 1`).  With `isn = 0` and
the first data byte at sequence number 1, the payload lands at absolute
index 1 (pending forever) instead of index 0 (deliverable); with FIN set it
lands at index 2. -/
theorem receiver_insert_index_cex :
    (TcpReceiver.receive_segment (TcpReceiver.new (Wrap32.new 0) 10)
        cexSegment1).1.reassembler.segments = [(1, [97])] ∧
    (TcpReceiver.receive_segment (TcpReceiver.new (Wrap32.new 0) 10)
        cexSegment1).1.reassembler.next_byte_idx = 0 ∧
    (TcpReceiver.receive_segment (TcpReceiver.new (Wrap32.new 0) 10)
        cexSegment1).2 = none ∧
    Wrap32.unwrap cexSegment1.seq_no (Wrap32.new 0) 0 - 1 = 0 ∧
    (TcpReceiver.receive_segment (TcpReceiver.new (Wrap32.new 0) 10)
        cexSegment2).1.reassembler.segments = [(2, [97])] := by
  refine ⟨by decide, by decide, by decide, by decide, by decide⟩

/-- Claim C6 (code bug): `TcpReceiver::generate_ack` returns
`Wrap32::new(next_byte_idx as u32)`, ignoring the ISN and the SYN/FIN
sequence-number consumption: on a fresh receiver with `isn = 100` it
produces 0, while the specification's formula
`wrap(next_byte_idx + 1, isn)` gives 101. -/
theorem receiver_generate_ack_cex :
    TcpReceiver.generate_ack (TcpReceiver.new (Wrap32.new 100) 10) =
      (Wrap32.new 0, 10) ∧
    Wrap32.wrap (0 + 1 + 0) (Wrap32.new 100) = Wrap32.new 101 ∧
    Wrap32.new 0 ≠ Wrap32.new 101 := by
  refine ⟨by decide, by decide, by decide⟩

/-! ### Reassembler claims -/

/-- Counterexample for C9 as stated: inserting `"b"` at 5 and then `"c"` at
6 (capacity 32) leaves two pending entries `(5, "b")`, `(6, "c")` that abut
— `5 + 1 < 6` fails.  `find_overlapping_segments` selects only strictly
overlapping segments (`seg_end > start`), so abutting ranges are *not*
merged into one entry. -/
theorem reassembler_abutting_cex :
    ReassemblerReachable 32
      ((Reassembler.insert
          ((Reassembler.insert (Reassembler.new (ByteStream.new 32)) 5 [98] false).1)
          6 [99] false).1) ∧
    ((Reassembler.insert
        ((Reassembler.insert (Reassembler.new (ByteStream.new 32)) 5 [98] false).1)
        6 [99] false).1).segments = [(5, [98]), (6, [99])] ∧
    ¬ (5 + ([98] : List Nat).length < 6) :=
  ⟨ReassemblerReachable.insert 6 [99] false
      (ReassemblerReachable.insert 5 [98] false ReassemblerReachable.init),
    by decide, by decide⟩

theorem SegMap.find?_ne_none_of_mem {m : SegMap} {k : Nat} {v : List Nat}
    (h : (k, v) ∈ m) : SegMap.find? m k ≠ none := by
  induction m with
  | nil => cases h
  | cons a t ih =>
    unfold SegMap.find?
    by_cases he : k = a.1
    · simp [he]
    · simp only [if_neg he]
      rcases List.mem_cons.mp h with h1 | h1
      · exact absurd (congrArg Prod.fst h1) he
      · exact ih h1

/-- Any two distinct entries of a disjoint-sorted map have disjoint ranges. -/
theorem SegMap.disjoint_of_mem {m : SegMap} (hd : SegMap.DisjointSorted m)
    {p q : Nat × List Nat} (hp : p ∈ m) (hq : q ∈ m) (hne : p ≠ q) :
    p.1 + p.2.length ≤ q.1 ∨ q.1 + q.2.length ≤ p.1 := by
  have h' : List.Pairwise
      (fun a b : Nat × List Nat =>
        a.1 + a.2.length ≤ b.1 ∨ b.1 + b.2.length ≤ a.1) m :=
    hd.imp (fun h => Or.inl h)
  exact List.Pairwise.forall (fun a b h => Or.symm h) h' hp hq hne

/-- Behaviour of the merge loop of `insert_buffer` on a list `O` of
overlapping segments, none of which starts before `m_start` or before
`cutoff`: the accumulated range and merge-buffer length are unchanged, the
processed segments are removed (with the tail of an over-long final segment
re-inserted at `m_end`), disjointness, window bounds and the separation of
the remaining segments from `[m_start, m_end)` are maintained, every byte
of a processed segment stays accounted for, and the merge buffer is
untouched below `cutoff`. -/
theorem mergeFold_aux (e cutoff lo hi : Nat) :
    ∀ (O : SegMap) (st : MergeSt),
    st.m_end = e →
    SegMap.DisjointSorted O →
    (∀ x ∈ O, x ∈ st.segs ∧ x.1 < e ∧ x.2 ≠ [] ∧ st.m_start ≤ x.1 ∧ cutoff ≤ x.1) →
    SegMap.DisjointSorted st.segs →
    (∀ y ∈ st.segs, y.2 ≠ [] ∧ lo ≤ y.1 ∧ y.1 + y.2.length ≤ hi) →
    (∀ y ∈ st.segs, (∀ x ∈ O, y.1 ≠ x.1) →
        (y.1 + y.2.length ≤ st.m_start ∨ e ≤ y.1)) →
    st.merged.length = e - st.m_start →
    st.m_start ≤ e →
    lo ≤ st.m_start → e ≤ hi →
    ((O.foldl mergeStep st).m_start = st.m_start ∧
     (O.foldl mergeStep st).m_end = e ∧
     (O.foldl mergeStep st).merged.length = e - st.m_start ∧
     SegMap.DisjointSorted (O.foldl mergeStep st).segs ∧
     (∀ y ∈ (O.foldl mergeStep st).segs,
        y.2 ≠ [] ∧ lo ≤ y.1 ∧ y.1 + y.2.length ≤ hi) ∧
     (∀ y ∈ (O.foldl mergeStep st).segs,
        y.1 + y.2.length ≤ st.m_start ∨ e ≤ y.1) ∧
     (∀ y ∈ (O.foldl mergeStep st).segs,
        y ∈ st.segs ∨ ∃ x ∈ O, y = (e, x.2.drop (e - x.1))) ∧
     (∀ x ∈ O, ∀ i, x.1 ≤ i → i < x.1 + x.2.length →
        (st.m_start ≤ i ∧ i < e) ∨
          ∃ y ∈ (O.foldl mergeStep st).segs, y.1 ≤ i ∧ i < y.1 + y.2.length) ∧
     (∀ j, j < st.merged.length → st.m_start + j < cutoff →
        (O.foldl mergeStep st).merged.getD j 0 = st.merged.getD j 0) ∧
     (∀ y ∈ st.segs, (∀ x ∈ O, y.1 ≠ x.1) → y ∈ (O.foldl mergeStep st).segs)) := by
  intro O
  induction O with
  | nil =>
    intro st hme _ _ hds hwin hsep hlen hmse hlo hhi
    refine ⟨rfl, hme, hlen, hds, hwin, ?_, ?_, ?_, ?_, ?_⟩
    · intro y hy
      exact hsep y hy (fun x hx => absurd hx (List.not_mem_nil x))
    · intro y hy
      exact Or.inl hy
    · intro x hx
      cases hx
    · intro j _ _
      rfl
    · intro y hy _
      exact hy
  | cons x rest ih =>
    intro st hme hdO hO hds hwin hsep hlen hmse hlo hhi
    obtain ⟨hxmem, hxlt, hxne, hxms, hxcut⟩ := hO x (List.mem_cons_self _ _)
    have hxlen : 0 < x.2.length := List.length_pos.mpr hxne
    have hsk : SegMap.SortedKeys st.segs :=
      SegMap.sortedKeys_of_disjointSorted hds (fun p hp => (hwin p hp).1)
    rcases List.pairwise_cons.mp hdO with ⟨hdOx, hdOrest⟩
    have hfold : (x :: rest).foldl mergeStep st = rest.foldl mergeStep (mergeStep st x) :=
      rfl
    rw [hfold]
    by_cases hfull : x.1 + x.2.length ≤ e
    · -- the segment lies inside [m_start, e): remove it and overlay its bytes
      have hstep : mergeStep st x =
          ⟨st.m_start, e,
            listOverlay st.merged (x.1 - st.m_start) x.2,
            SegMap.erase st.segs x.1⟩ := by
        simp only [mergeStep, hme]
        rw [if_pos (by omega : x.1 + x.2.length ≤ e)]
        have h1 : min st.m_start x.1 = st.m_start := by omega
        have h2 : max e (x.1 + x.2.length) = e := by omega
        rw [h1, h2, if_neg (by omega : ¬ (st.merged.length < e - st.m_start))]
      rw [hstep]
      have hover : (x.1 - st.m_start) + x.2.length ≤ st.merged.length := by omega
      have hmlen : (listOverlay st.merged (x.1 - st.m_start) x.2).length =
          st.merged.length := listOverlay_length hover
      have ihres := ih ⟨st.m_start, e,
          listOverlay st.merged (x.1 - st.m_start) x.2, SegMap.erase st.segs x.1⟩
        rfl hdOrest
        (by
          intro x' hx'
          have hx'O := hO x' (List.mem_cons_of_mem _ hx')
          have hkey : x.1 + x.2.length ≤ x'.1 := hdOx x' hx'
          exact ⟨SegMap.mem_erase_of_mem hx'O.1 (by omega), hx'O.2.1, hx'O.2.2.1,
            hx'O.2.2.2.1, hx'O.2.2.2.2⟩)
        (SegMap.disjointSorted_erase hds x.1)
        (fun y hy => hwin y (SegMap.mem_of_mem_erase hy))
        (by
          intro y hy hyk
          have hyne := SegMap.key_ne_of_mem_erase hsk hy
          refine hsep y (SegMap.mem_of_mem_erase hy) ?_
          intro x' hx'
          rcases List.mem_cons.mp hx' with h1 | h1
          · rw [h1]
            exact hyne
          · exact hyk x' h1)
        (by simpa [hmlen] using hlen)
        hmse hlo hhi
      obtain ⟨c1, c2, c3, c4, c5, c6, c7, c8, c9, c10⟩ := ihres
      simp only at c1 c2 c3 c6 c9
      refine ⟨c1, c2, c3, c4, c5, c6, ?_, ?_, ?_, ?_⟩
      · intro y hy
        rcases c7 y hy with h1 | ⟨x', hx', h2⟩
        · exact Or.inl (SegMap.mem_of_mem_erase h1)
        · exact Or.inr ⟨x', List.mem_cons_of_mem _ hx', h2⟩
      · intro x' hx' i hi1 hi2
        rcases List.mem_cons.mp hx' with h1 | h1
        · subst h1
          exact Or.inl ⟨by omega, by omega⟩
        · exact c8 x' h1 i hi1 hi2
      · intro j hj hjcut
        have h9 := c9 j (by simpa [hmlen] using hj) hjcut
        simp only at h9
        rw [h9]
        exact listOverlay_getD_left (by omega) (by omega)
      · intro y hy hyk
        have hynx : y.1 ≠ x.1 := hyk x (List.mem_cons_self _ _)
        exact c10 y (SegMap.mem_erase_of_mem hy hynx)
          (fun x' hx' => hyk x' (List.mem_cons_of_mem _ hx'))
    · -- the segment sticks out past e: keep only the overlap, re-key the tail
      push_neg at hfull
      have hrest : rest = [] := by
        cases rest with
        | nil => rfl
        | cons x' r' =>
          exfalso
          have h1 := hdOx x' (List.mem_cons_self _ _)
          have h2 := (hO x' (List.mem_cons_of_mem _ (List.mem_cons_self _ _))).2.1
          omega
      subst hrest
      have hstep : mergeStep st x =
          ⟨st.m_start, e,
            listOverlay st.merged (x.1 - st.m_start) (x.2.take (e - x.1)),
            SegMap.insert (SegMap.erase st.segs x.1) e (x.2.drop (e - x.1))⟩ := by
        simp only [mergeStep, hme]
        rw [if_neg (by omega : ¬ (x.1 + x.2.length ≤ e))]
        have h1 : min st.m_start x.1 = st.m_start := by omega
        rw [h1, if_neg (by omega : ¬ (st.merged.length < e - st.m_start))]
      rw [hstep]
      simp only [List.foldl_nil]
      have htlen : (x.2.take (e - x.1)).length = e - x.1 := by
        simp
        omega
      have hover : (x.1 - st.m_start) + (x.2.take (e - x.1)).length ≤
          st.merged.length := by
        rw [htlen]
        omega
      have hmlen := listOverlay_length hover
      have hdlen : (x.2.drop (e - x.1)).length = x.2.length - (e - x.1) := by simp
      have hdne : x.2.drop (e - x.1) ≠ [] := by
        intro hc
        have := congrArg List.length hc
        rw [hdlen] at this
        simp at this
        omega
      have hothers : ∀ y ∈ SegMap.erase st.segs x.1,
          y.1 + y.2.length ≤ st.m_start ∨ e ≤ y.1 := by
        intro y hy
        have hyne := SegMap.key_ne_of_mem_erase hsk hy
        refine hsep y (SegMap.mem_of_mem_erase hy) ?_
        intro x' hx'
        rcases List.mem_cons.mp hx' with h1 | h1
        · rw [h1]
          exact hyne
        · cases h1
      have hothers2 : ∀ y ∈ SegMap.erase st.segs x.1,
          e ≤ y.1 → x.1 + x.2.length ≤ y.1 := by
        intro y hy hey
        have hym : y ∈ st.segs := SegMap.mem_of_mem_erase hy
        have hyne2 : 0 < y.2.length := List.length_pos.mpr (hwin y hym).1
        have hkne := SegMap.key_ne_of_mem_erase hsk hy
        have hda := SegMap.disjoint_of_mem hds hym hxmem
          (fun hc => hkne (congrArg Prod.fst hc))
        omega
      refine ⟨by trivial, by trivial, ?_, ?_, ?_, ?_, ?_, ?_, ?_, ?_⟩
      · rw [hmlen]
        omega
      · refine SegMap.disjointSorted_insert (SegMap.disjointSorted_erase hds x.1)
          (fun p hp => (hwin p (SegMap.mem_of_mem_erase hp)).1) ?_
        intro p hp
        rcases hothers p hp with h1 | h1
        · exact ⟨fun _ => by omega, fun h2 => by omega⟩
        · have h3 := hothers2 p hp h1
          rw [hdlen]
          exact ⟨fun h2 => by omega, fun _ => by omega⟩
      · intro y hy
        rcases SegMap.mem_insert_elim hy with h1 | h1
        · subst h1
          have := (hwin x hxmem).2.2
          refine ⟨hdne, by omega, ?_⟩
          rw [hdlen]
          omega
        · exact hwin y (SegMap.mem_of_mem_erase h1)
      · intro y hy
        rcases SegMap.mem_insert_elim hy with h1 | h1
        · subst h1
          exact Or.inr (le_refl _)
        · exact hothers y h1
      · intro y hy
        rcases SegMap.mem_insert_elim hy with h1 | h1
        · exact Or.inr ⟨x, List.mem_cons_self _ _, h1⟩
        · exact Or.inl (SegMap.mem_of_mem_erase h1)
      · intro x' hx' i hi1 hi2
        rcases List.mem_cons.mp hx' with h1 | h1
        · subst h1
          by_cases hie : i < e
          · exact Or.inl ⟨by omega, hie⟩
          · refine Or.inr ⟨(e, x'.2.drop (e - x'.1)), SegMap.mem_insert_self _ _ _, ?_, ?_⟩
            · omega
            · rw [hdlen]
              omega
        · cases h1
      · intro j hj hjcut
        exact listOverlay_getD_left (by omega) (by omega)
      · intro y hy hyk
        have hynx : y.1 ≠ x.1 := hyk x (List.mem_cons_self _ _)
        have hy2 : y ∈ SegMap.erase st.segs x.1 := SegMap.mem_erase_of_mem hy hynx
        refine SegMap.mem_insert_of_mem hy2 ?_ _
        intro hye
        have hyne2 : 0 < y.2.length := List.length_pos.mpr (hwin y hy).1
        have hda := SegMap.disjoint_of_mem hds hy hxmem
          (fun hc => hynx (congrArg Prod.fst hc))
        omega

/-- `(l.take n).getD j = l.getD j` below the cut. -/
theorem listTake_getD {l : List Nat} {n j : Nat} (hj : j < n) (hl : j < l.length) :
    (l.take n).getD j 0 = l.getD j 0 := by
  rw [List.getD_eq_getElem _ _ (by simp; omega), List.getElem_take,
    List.getD_eq_getElem _ _ hl]

/-- Entries of a sorted map with equal keys are equal. -/
theorem SegMap.eq_of_mem_of_key_eq {m : SegMap} (hs : SegMap.SortedKeys m)
    {p q : Nat × List Nat} (hp : p ∈ m) (hq : q ∈ m) (hk : p.1 = q.1) : p = q := by
  by_contra hne
  have h' : List.Pairwise (fun a b : Nat × List Nat => a.1 ≠ b.1) m :=
    hs.imp (fun h => by omega)
  exact (List.Pairwise.forall (fun a b h => h.symm) h' hp hq hne) hk

theorem findOverlapping_sublist (segs : SegMap) (start e : Nat) :
    (findOverlapping segs start e).Sublist segs :=
  List.filter_sublist _

theorem mem_findOverlapping {segs : SegMap} {start e : Nat} {p : Nat × List Nat} :
    p ∈ findOverlapping segs start e ↔
      p ∈ segs ∧ p.1 < e ∧ start < p.1 + p.2.length := by
  simp [findOverlapping, List.mem_filter]

/-- Assembling the final state of `insert_buffer` from the facts that hold
after the merge loop: inserting the merged window back yields a disjoint
map inside the window bounds whose entries are old segments, tails of old
segments re-keyed at `e`, or the merged segment; the merged segment is the
incoming window on `[start, e)` and old bytes below `start`; and every old
byte plus the whole window stays covered. -/
theorem mergeInto_assemble (segs : SegMap) (start e : Nat) (window : List Nat)
    (lo hi : Nat) (F : MergeSt)
    (hse : start < e)
    (hwlen : window.length = e - start)
    (hlo : lo ≤ F.m_start) (hms : F.m_start ≤ start) (hhi : e ≤ hi)
    (hFlen : F.merged.length = e - F.m_start)
    (hFds : SegMap.DisjointSorted F.segs)
    (hFwin : ∀ y ∈ F.segs, y.2 ≠ [] ∧ lo ≤ y.1 ∧ y.1 + y.2.length ≤ hi)
    (hFsep : ∀ y ∈ F.segs, y.1 + y.2.length ≤ F.m_start ∨ e ≤ y.1)
    (hFprov : ∀ y ∈ F.segs, y ∈ segs ∨
        ∃ x ∈ segs, x.1 < e ∧ y = (e, x.2.drop (e - x.1)))
    (hFpre : ∀ j, j < e - F.m_start → F.m_start + j < start →
        ∃ x ∈ segs, x.1 = F.m_start ∧ j < x.2.length ∧
          F.merged.getD j 0 = x.2.getD j 0)
    (hFcov : ∀ p ∈ segs, ∀ i, p.1 ≤ i → i < p.1 + p.2.length →
        (F.m_start ≤ i ∧ i < e) ∨ ∃ y ∈ F.segs, y.1 ≤ i ∧ i < y.1 + y.2.length) :
    SegMap.DisjointSorted
      (SegMap.insert F.segs F.m_start
        (listOverlay F.merged (start - F.m_start) window)) ∧
    (∀ p ∈ SegMap.insert F.segs F.m_start
        (listOverlay F.merged (start - F.m_start) window),
        p.2 ≠ [] ∧ lo ≤ p.1 ∧ p.1 + p.2.length ≤ hi) ∧
    (∀ p ∈ SegMap.insert F.segs F.m_start
        (listOverlay F.merged (start - F.m_start) window),
        p ∈ segs ∨
        (∃ x ∈ segs, x.1 < e ∧ p = (e, x.2.drop (e - x.1))) ∨
        p = (F.m_start, listOverlay F.merged (start - F.m_start) window)) ∧
    (listOverlay F.merged (start - F.m_start) window).length = e - F.m_start ∧
    (∀ j, j < e - F.m_start →
        (start ≤ F.m_start + j →
          (listOverlay F.merged (start - F.m_start) window).getD j 0 =
            window.getD (F.m_start + j - start) 0) ∧
        (F.m_start + j < start →
          ∃ x ∈ segs, x.1 = F.m_start ∧ j < x.2.length ∧
            (listOverlay F.merged (start - F.m_start) window).getD j 0 =
              x.2.getD j 0)) ∧
    (∀ i, ((∃ p ∈ segs, p.1 ≤ i ∧ i < p.1 + p.2.length) ∨ (start ≤ i ∧ i < e)) →
        ∃ p ∈ SegMap.insert F.segs F.m_start
            (listOverlay F.merged (start - F.m_start) window),
          p.1 ≤ i ∧ i < p.1 + p.2.length) := by
  have hoover : (start - F.m_start) + window.length ≤ F.merged.length := by omega
  have hmlen : (listOverlay F.merged (start - F.m_start) window).length =
      e - F.m_start := by
    rw [listOverlay_length hoover]
    omega
  have hkey : ∀ y ∈ F.segs, y.1 ≠ F.m_start := by
    intro y hy
    have h1 := (hFwin y hy).1
    have h2 : 0 < y.2.length := List.length_pos.mpr h1
    rcases hFsep y hy with h3 | h3 <;> omega
  refine ⟨?_, ?_, ?_, hmlen, ?_, ?_⟩
  · refine SegMap.disjointSorted_insert hFds (fun p hp => (hFwin p hp).1) ?_
    intro p hp
    have h2 : 0 < p.2.length := List.length_pos.mpr (hFwin p hp).1
    rcases hFsep p hp with h3 | h3
    · exact ⟨fun _ => by omega, fun h4 => by omega⟩
    · rw [hmlen]
      exact ⟨fun h4 => by omega, fun _ => by omega⟩
  · intro p hp
    rcases SegMap.mem_insert_elim hp with h1 | h1
    · subst h1
      refine ⟨?_, by omega, by rw [hmlen]; omega⟩
      intro hc
      have := congrArg List.length hc
      rw [hmlen] at this
      simp at this
      omega
    · exact hFwin p h1
  · intro p hp
    rcases SegMap.mem_insert_elim hp with h1 | h1
    · exact Or.inr (Or.inr h1)
    · rcases hFprov p h1 with h2 | ⟨x, hx, hxe, h3⟩
      · exact Or.inl h2
      · exact Or.inr (Or.inl ⟨x, hx, hxe, h3⟩)
  · intro j hj
    constructor
    · intro hjs
      rw [listOverlay_getD_mid (by omega) (by omega) (by omega)]
      congr 1
      omega
    · intro hjs
      obtain ⟨x, hx, hx1, hx2, hx3⟩ := hFpre j hj hjs
      refine ⟨x, hx, hx1, hx2, ?_⟩
      rw [listOverlay_getD_left (by omega) (by omega)]
      exact hx3
  · intro i hi
    rcases hi with ⟨p, hp, hp1, hp2⟩ | ⟨h1, h2⟩
    · rcases hFcov p hp i hp1 hp2 with ⟨h3, h4⟩ | ⟨y, hy, hy1, hy2⟩
      · refine ⟨(F.m_start, listOverlay F.merged (start - F.m_start) window),
          SegMap.mem_insert_self _ _ _, by simpa using h3, ?_⟩
        simp only
        rw [hmlen]
        omega
      · exact ⟨y, SegMap.mem_insert_of_mem hy (hkey y hy) _, hy1, hy2⟩
    · refine ⟨(F.m_start, listOverlay F.merged (start - F.m_start) window),
        SegMap.mem_insert_self _ _ _, by simp; omega, ?_⟩
      simp only
      rw [hmlen]
      omega

/-- Full behaviour of the merge-and-reinsert step of `insert_buffer` for a
clamped window `[start, e)`: the result is disjoint-sorted within the
window bounds, its entries are old segments, the re-keyed tail of an old
segment, or the merged segment keyed at the final `m_start`; the merged
segment spans `[m_start, e)`, carries the incoming window on `[start, e)`
and old bytes of the segment starting at `m_start` below `start`; and
every previously covered byte plus the whole window remains covered. -/
theorem mergeInto_core (segs : SegMap) (start e : Nat) (window : List Nat)
    (lo hi : Nat)
    (hse : start < e)
    (hwlen : window.length = e - start)
    (hds : SegMap.DisjointSorted segs)
    (hwin : ∀ p ∈ segs, p.2 ≠ [] ∧ lo ≤ p.1 ∧ p.1 + p.2.length ≤ hi)
    (hlo : lo ≤ start) (hhi : e ≤ hi) :
    SegMap.DisjointSorted (mergeInto segs start e window) ∧
    (∀ p ∈ mergeInto segs start e window,
        p.2 ≠ [] ∧ lo ≤ p.1 ∧ p.1 + p.2.length ≤ hi) ∧
    (∀ p ∈ mergeInto segs start e window,
        p ∈ segs ∨
        (∃ x ∈ segs, x.1 < e ∧ p = (e, x.2.drop (e - x.1))) ∨
        p = ((mergeFold segs start e window).m_start,
          listOverlay (mergeFold segs start e window).merged
            (start - (mergeFold segs start e window).m_start) window)) ∧
    (listOverlay (mergeFold segs start e window).merged
        (start - (mergeFold segs start e window).m_start) window).length =
      e - (mergeFold segs start e window).m_start ∧
    (∀ j, j < e - (mergeFold segs start e window).m_start →
        (start ≤ (mergeFold segs start e window).m_start + j →
          (listOverlay (mergeFold segs start e window).merged
            (start - (mergeFold segs start e window).m_start) window).getD j 0 =
            window.getD ((mergeFold segs start e window).m_start + j - start) 0) ∧
        ((mergeFold segs start e window).m_start + j < start →
          ∃ x ∈ segs, x.1 = (mergeFold segs start e window).m_start ∧
            j < x.2.length ∧
            (listOverlay (mergeFold segs start e window).merged
              (start - (mergeFold segs start e window).m_start) window).getD j 0 =
              x.2.getD j 0)) ∧
    (∀ i, ((∃ p ∈ segs, p.1 ≤ i ∧ i < p.1 + p.2.length) ∨ (start ≤ i ∧ i < e)) →
        ∃ p ∈ mergeInto segs start e window, p.1 ≤ i ∧ i < p.1 + p.2.length) := by
  have hsk : SegMap.SortedKeys segs :=
    SegMap.sortedKeys_of_disjointSorted hds (fun p hp => (hwin p hp).1)
  have hnotO : ∀ y ∈ segs, y ∉ findOverlapping segs start e →
      y.1 + y.2.length ≤ start ∨ e ≤ y.1 := by
    intro y hy hyO
    by_contra hc
    push_neg at hc
    exact hyO (mem_findOverlapping.mpr ⟨hy, by omega, by omega⟩)
  unfold mergeInto mergeFold
  cases hO : findOverlapping segs start e with
  | nil =>
    simp only [List.foldl_nil]
    have hres := mergeInto_assemble segs start e window lo hi
      ⟨start, e, window, segs⟩ hse hwlen hlo (le_refl _) hhi
      (by simpa using hwlen) hds hwin
      (by
        intro y hy
        exact hnotO y hy (by rw [hO]; exact List.not_mem_nil y))
      (fun y hy => Or.inl hy)
      (by
        intro j hj hjs
        dsimp only at hjs
        exact absurd hjs (by omega))
      (by
        intro p hp i hi1 hi2
        exact Or.inr ⟨p, hp, hi1, hi2⟩)
    exact hres
  | cons x₁ rest =>
    have hx₁O : x₁ ∈ findOverlapping segs start e := by
      rw [hO]; exact List.mem_cons_self _ _
    obtain ⟨hx₁segs, hx₁lt, hx₁ov⟩ := mem_findOverlapping.mp hx₁O
    have hx₁ne : x₁.2 ≠ [] := (hwin x₁ hx₁segs).1
    have hx₁len : 0 < x₁.2.length := List.length_pos.mpr hx₁ne
    have hx₁lo : lo ≤ x₁.1 := (hwin x₁ hx₁segs).2.1
    have hx₁hi : x₁.1 + x₁.2.length ≤ hi := (hwin x₁ hx₁segs).2.2
    have hdO : SegMap.DisjointSorted (findOverlapping segs start e) :=
      List.Pairwise.sublist (findOverlapping_sublist segs start e) hds
    rw [hO] at hdO
    rcases List.pairwise_cons.mp hdO with ⟨hdOx, hdOrest⟩
    have hrest_mem : ∀ x' ∈ rest, x' ∈ segs ∧ x'.1 < e ∧ start < x'.1 + x'.2.length := by
      intro x' hx'
      exact mem_findOverlapping.mp (by rw [hO]; exact List.mem_cons_of_mem _ hx')
    have hkeyeq : ∀ p ∈ segs, ∀ q ∈ segs, p.1 = q.1 → p = q := by
      intro p hp q hq hk
      exact SegMap.eq_of_mem_of_key_eq hsk hp hq hk
    -- separation of segments that survive the erase, strengthened below m_start
    have hstrength : ∀ y ∈ SegMap.erase segs x₁.1,
        (y.1 + y.2.length ≤ start ∨ e ≤ y.1) →
        (y.1 + y.2.length ≤ min start x₁.1 ∨ e ≤ y.1) := by
      intro y hy h
      rcases h with h | h
      · by_cases hms : x₁.1 < start
        · have hym := SegMap.mem_of_mem_erase hy
          have hkne := SegMap.key_ne_of_mem_erase hsk hy
          have hda := SegMap.disjoint_of_mem hds hym hx₁segs
            (fun hc => hkne (congrArg Prod.fst hc))
          have hylen : 0 < y.2.length := List.length_pos.mpr (hwin y hym).1
          rcases hda with h2 | h2
          · left; omega
          · left; omega
        · left; omega
      · right; exact h
    have hnotO2 : ∀ y ∈ SegMap.erase segs x₁.1, (∀ x' ∈ rest, y.1 ≠ x'.1) →
        y.1 + y.2.length ≤ min start x₁.1 ∨ e ≤ y.1 := by
      intro y hy hyk
      have hym := SegMap.mem_of_mem_erase hy
      have hkne := SegMap.key_ne_of_mem_erase hsk hy
      refine hstrength y hy (hnotO y hym ?_)
      intro hyO
      rw [hO] at hyO
      rcases List.mem_cons.mp hyO with h1 | h1
      · exact hkne (congrArg Prod.fst h1)
      · exact hyk y h1 rfl
    simp only [List.foldl_cons]
    by_cases hfull : x₁.1 + x₁.2.length ≤ e
    · -- first overlap lies inside [m_start, e)
      have hstep : mergeStep ⟨start, e, window, segs⟩ x₁ =
          ⟨min start x₁.1, e,
            listOverlay
              (if window.length < e - min start x₁.1
                then listResize window (e - min start x₁.1) 0 else window)
              (x₁.1 - min start x₁.1) x₁.2,
            SegMap.erase segs x₁.1⟩ := by
        simp only [mergeStep]
        rw [if_pos hfull]
        have h2 : max e (x₁.1 + x₁.2.length) = e := by omega
        rw [h2]
      rw [hstep]
      have hm1len : (if window.length < e - min start x₁.1
          then listResize window (e - min start x₁.1) 0 else window).length =
          e - min start x₁.1 := by
        split
        · exact listResize_length_of_le (by omega)
        · omega
      have hover1 : (x₁.1 - min start x₁.1) + x₁.2.length ≤
          (if window.length < e - min start x₁.1
            then listResize window (e - min start x₁.1) 0 else window).length := by
        rw [hm1len]; omega
      have hst1len : (listOverlay
          (if window.length < e - min start x₁.1
            then listResize window (e - min start x₁.1) 0 else window)
          (x₁.1 - min start x₁.1) x₁.2).length = e - min start x₁.1 := by
        rw [listOverlay_length hover1, hm1len]
      have haux := mergeFold_aux e start lo hi rest
        ⟨min start x₁.1, e,
          listOverlay
            (if window.length < e - min start x₁.1
              then listResize window (e - min start x₁.1) 0 else window)
            (x₁.1 - min start x₁.1) x₁.2,
          SegMap.erase segs x₁.1⟩
        rfl hdOrest
        (by
          intro x' hx'
          obtain ⟨h1, h2, h3⟩ := hrest_mem x' hx'
          have hkey : x₁.1 + x₁.2.length ≤ x'.1 := hdOx x' hx'
          exact ⟨SegMap.mem_erase_of_mem h1 (by omega), h2,
            (hwin x' h1).1, by simp; omega, by omega⟩)
        (SegMap.disjointSorted_erase hds x₁.1)
        (fun y hy => hwin y (SegMap.mem_of_mem_erase hy))
        (by
          intro y hy hyk
          exact hnotO2 y hy hyk)
        (by simpa using hst1len)
        (by simp; omega) (by simp; omega) hhi
      obtain ⟨c1, c2, c3, c4, c5, c6, c7, c8, c9, c10⟩ := haux
      simp only at c1 c2 c3 c6 c8 c9
      have hres := mergeInto_assemble segs start e window lo hi
        (rest.foldl mergeStep
          ⟨min start x₁.1, e,
            listOverlay
              (if window.length < e - min start x₁.1
                then listResize window (e - min start x₁.1) 0 else window)
              (x₁.1 - min start x₁.1) x₁.2,
            SegMap.erase segs x₁.1⟩)
        hse hwlen (by rw [c1]; omega) (by rw [c1]; omega) hhi
        (by rw [c1]; exact c3)
        c4 c5
        (by rw [c1]; exact c6)
        (by
          intro y hy
          rcases c7 y hy with h1 | ⟨x', hx', h2⟩
          · exact Or.inl (SegMap.mem_of_mem_erase h1)
          · exact Or.inr ⟨x', (hrest_mem x' hx').1, (hrest_mem x' hx').2.1, h2⟩)
        (by
          rw [c1]
          intro j hj hjs
          have hxm : x₁.1 < start := by omega
          have hmin : min start x₁.1 = x₁.1 := by omega
          refine ⟨x₁, hx₁segs, by omega, by omega, ?_⟩
          have h9 := c9 j (by rw [hst1len]; omega) (by omega)
          rw [h9]
          rw [listOverlay_getD_mid (by omega) (by omega) hover1]
          congr 1
          omega)
        (by
          intro p hp i hi1 hi2
          by_cases hpO : p ∈ findOverlapping segs start e
          · rw [hO] at hpO
            rcases List.mem_cons.mp hpO with h1 | h1
            · subst h1
              rw [c1]
              left
              constructor <;> omega
            · have h8 := c8 p h1 i hi1 hi2
              rcases h8 with h9 | h9
              · rw [c1]; exact Or.inl h9
              · exact Or.inr h9
          · have hsep := hnotO p hp (by rw [hO] at hpO ⊢; exact hpO)
            have hp1 : p.1 ≠ x₁.1 := by
              intro hc
              exact hpO (hkeyeq p hp x₁ hx₁segs hc ▸ hx₁O)
            have hp2 : ∀ x' ∈ rest, p.1 ≠ x'.1 := by
              intro x' hx' hc
              exact hpO (hkeyeq p hp x' (hrest_mem x' hx').1 hc ▸
                (by rw [hO]; exact List.mem_cons_of_mem _ hx'))
            have hpF := c10 p (SegMap.mem_erase_of_mem hp hp1) hp2
            exact Or.inr ⟨p, hpF, hi1, hi2⟩)
      exact hres
    · -- first overlap sticks out past e: rest is empty, tail re-keyed at e
      push_neg at hfull
      have hrest : rest = [] := by
        cases rest with
        | nil => rfl
        | cons x' r' =>
          exfalso
          have h1 := hdOx x' (List.mem_cons_self _ _)
          have h2 := (hrest_mem x' (List.mem_cons_self _ _)).2.1
          omega
      subst hrest
      have hstep : mergeStep ⟨start, e, window, segs⟩ x₁ =
          ⟨min start x₁.1, e,
            listOverlay
              (if window.length < e - min start x₁.1
                then listResize window (e - min start x₁.1) 0 else window)
              (x₁.1 - min start x₁.1) (x₁.2.take (e - x₁.1)),
            SegMap.insert (SegMap.erase segs x₁.1) e (x₁.2.drop (e - x₁.1))⟩ := by
        simp only [mergeStep]
        rw [if_neg (by omega : ¬ (x₁.1 + x₁.2.length ≤ e))]
      rw [hstep]
      simp only [List.foldl_nil]
      have hm1len : (if window.length < e - min start x₁.1
          then listResize window (e - min start x₁.1) 0 else window).length =
          e - min start x₁.1 := by
        split
        · exact listResize_length_of_le (by omega)
        · omega
      have htlen : (x₁.2.take (e - x₁.1)).length = e - x₁.1 := by
        simp; omega
      have hover1 : (x₁.1 - min start x₁.1) + (x₁.2.take (e - x₁.1)).length ≤
          (if window.length < e - min start x₁.1
            then listResize window (e - min start x₁.1) 0 else window).length := by
        rw [hm1len, htlen]; omega
      have hst1len : (listOverlay
          (if window.length < e - min start x₁.1
            then listResize window (e - min start x₁.1) 0 else window)
          (x₁.1 - min start x₁.1) (x₁.2.take (e - x₁.1))).length =
          e - min start x₁.1 := by
        rw [listOverlay_length hover1, hm1len]
      have hdlen : (x₁.2.drop (e - x₁.1)).length = x₁.2.length - (e - x₁.1) := by simp
      have hdne : x₁.2.drop (e - x₁.1) ≠ [] := by
        intro hc
        have := congrArg List.length hc
        rw [hdlen] at this
        simp at this
        omega
      have hkeyE : ∀ p ∈ SegMap.erase segs x₁.1, p.1 ≠ e := by
        intro p hp hc
        have hpm := SegMap.mem_of_mem_erase hp
        have hkne := SegMap.key_ne_of_mem_erase hsk hp
        have hda := SegMap.disjoint_of_mem hds hpm hx₁segs
          (fun hc2 => hkne (congrArg Prod.fst hc2))
        have hplen : 0 < p.2.length := List.length_pos.mpr (hwin p hpm).1
        rcases hda with h2 | h2 <;> omega
      have hres := mergeInto_assemble segs start e window lo hi
        ⟨min start x₁.1, e,
          listOverlay
            (if window.length < e - min start x₁.1
              then listResize window (e - min start x₁.1) 0 else window)
            (x₁.1 - min start x₁.1) (x₁.2.take (e - x₁.1)),
          SegMap.insert (SegMap.erase segs x₁.1) e (x₁.2.drop (e - x₁.1))⟩
        hse hwlen (by dsimp only; omega) (by dsimp only; omega) hhi
        (by simpa using hst1len)
        (by
          refine SegMap.disjointSorted_insert (SegMap.disjointSorted_erase hds x₁.1)
            (fun p hp => (hwin p (SegMap.mem_of_mem_erase hp)).1) ?_
          intro p hp
          have hplen : 0 < p.2.length :=
            List.length_pos.mpr (hwin p (SegMap.mem_of_mem_erase hp)).1
          have hkne := SegMap.key_ne_of_mem_erase hsk hp
          have hda := SegMap.disjoint_of_mem hds (SegMap.mem_of_mem_erase hp) hx₁segs
            (fun hc2 => hkne (congrArg Prod.fst hc2))
          rw [hdlen]
          rcases hda with h2 | h2
          · exact ⟨fun h3 => by omega, fun h3 => by omega⟩
          · exact ⟨fun h3 => by omega, fun h3 => by omega⟩)
        (by
          intro y hy
          rcases SegMap.mem_insert_elim hy with h1 | h1
          · subst h1
            refine ⟨hdne, by omega, ?_⟩
            rw [hdlen]
            omega
          · exact hwin y (SegMap.mem_of_mem_erase h1))
        (by
          intro y hy
          rcases SegMap.mem_insert_elim hy with h1 | h1
          · subst h1
            exact Or.inr (le_refl e)
          · have hsep2 := hnotO2 y h1 (fun x' hx' => absurd hx' (List.not_mem_nil x'))
            dsimp only
            exact hsep2)
        (by
          intro y hy
          rcases SegMap.mem_insert_elim hy with h1 | h1
          · exact Or.inr ⟨x₁, hx₁segs, hx₁lt, h1⟩
          · exact Or.inl (SegMap.mem_of_mem_erase h1))
        (by
          intro j hj hjs
          dsimp only at hj hjs ⊢
          have hxm : x₁.1 < start := by omega
          have hmin : min start x₁.1 = x₁.1 := by omega
          refine ⟨x₁, hx₁segs, by omega, by omega, ?_⟩
          rw [listOverlay_getD_mid (by omega) (by rw [htlen]; omega) hover1]
          rw [listTake_getD (by omega) (by omega)]
          congr 1
          omega)
        (by
          intro p hp i hi1 hi2
          by_cases hpO : p ∈ findOverlapping segs start e
          · rw [hO] at hpO
            rcases List.mem_cons.mp hpO with h1 | h1
            · subst h1
              by_cases hie : i < e
              · left
                dsimp only
                constructor <;> omega
              · refine Or.inr ⟨(e, p.2.drop (e - p.1)), SegMap.mem_insert_self _ _ _,
                  by simp; omega, ?_⟩
                dsimp only
                rw [hdlen]
                omega
            · cases h1
          · have hsep2 := hnotO p hp (by rw [hO] at hpO ⊢; exact hpO)
            have hp1 : p.1 ≠ x₁.1 := by
              intro hc
              exact hpO (hkeyeq p hp x₁ hx₁segs hc ▸ hx₁O)
            have hpe := SegMap.mem_erase_of_mem hp hp1
            refine Or.inr ⟨p, SegMap.mem_insert_of_mem hpe (hkeyE p hpe) _, hi1, hi2⟩)
      exact hres

/-- Splitting a successful `ByteStream::write`. -/
theorem ByteStream.write_ok {s : ByteStream} {buf : List Nat} {out : ByteStream} {n : Nat}
    (h : ByteStream.write s buf = Except.ok (out, n)) :
    s.closed = false ∧ n = min buf.length (ByteStream.remaining_capacity s) ∧
    out = { s with buffer := s.buffer ++ buf.take n,
                   bytes_written := s.bytes_written + n } := by
  unfold ByteStream.write at h
  by_cases hcl : s.closed
  · rw [if_pos hcl] at h; cases h
  · rw [if_neg hcl] at h
    simp only [Except.ok.injEq, Prod.mk.injEq] at h
    obtain ⟨h1, h2⟩ := h
    subst h2
    exact ⟨by simpa using hcl, rfl, h1.symm⟩

/-- A failing `ByteStream::write` means the stream was closed. -/
theorem ByteStream.write_error {s : ByteStream} {buf : List Nat} {m : String}
    (h : ByteStream.write s buf = Except.error m) : s.closed = true := by
  unfold ByteStream.write at h
  by_cases hcl : s.closed
  · exact hcl
  · rw [if_neg hcl] at h; cases h

/-- A fresh reassembler satisfies the structural invariant. -/
theorem reassemblerInv_new (cap : Nat) :
    ReassemblerInv cap (Reassembler.new (ByteStream.new cap)) := by
  refine ⟨rfl, by simp [Reassembler.new, ByteStream.new], rfl, List.Pairwise.nil, ?_⟩
  intro p hp
  cases hp

/-- `insert_buffer` preserves the structural invariant. -/
theorem insert_buffer_inv {cap : Nat} {r : Reassembler} (h : ReassemblerInv cap r)
    (seq_num : Nat) (data : List Nat) :
    ReassemblerInv cap (Reassembler.insert_buffer r seq_num data) := by
  obtain ⟨hcap, hbuf, hacct, hds, hwin⟩ := h
  have hrem : ByteStream.remaining_capacity r.output = cap - r.output.buffer.length := by
    unfold ByteStream.remaining_capacity
    rw [hcap]
  simp only [Reassembler.insert_buffer]
  by_cases h1 : data.isEmpty
  · rw [if_pos h1]
    exact ⟨hcap, hbuf, hacct, hds, hwin⟩
  · rw [if_neg h1]
    by_cases h2 : seq_num + data.length ≤ r.next_byte_idx
    · rw [if_pos h2]
      exact ⟨hcap, hbuf, hacct, hds, hwin⟩
    · rw [if_neg h2]
      by_cases h3 : min (seq_num + data.length)
          (r.next_byte_idx + ByteStream.remaining_capacity r.output) ≤
          max seq_num r.next_byte_idx
      · rw [if_pos h3]
        exact ⟨hcap, hbuf, hacct, hds, hwin⟩
      · rw [if_neg h3]
        push_neg at h2 h3
        have hdlen : 0 < data.length := by
          cases data with
          | nil => exact absurd rfl h1
          | cons a t => simp
        have hcore := mergeInto_core r.segments
          (max seq_num r.next_byte_idx)
          (min (seq_num + data.length)
            (r.next_byte_idx + ByteStream.remaining_capacity r.output))
          (listSlice data (max seq_num r.next_byte_idx - seq_num)
            (min (seq_num + data.length)
              (r.next_byte_idx + ByteStream.remaining_capacity r.output) - seq_num))
          r.next_byte_idx (r.next_byte_idx + (cap - r.output.buffer.length))
          h3
          (by
            rw [listSlice_length (by omega) (by omega)]
            omega)
          hds hwin (by omega) (by omega)
        obtain ⟨k1, k2, _⟩ := hcore
        exact ⟨hcap, hbuf, hacct, k1, k2⟩

/-- `try_write` (with any fuel) preserves the structural invariant. -/
theorem try_write_fuel_inv {cap : Nat} :
    ∀ (fuel : Nat) (r : Reassembler), ReassemblerInv cap r →
      ReassemblerInv cap (Reassembler.try_write_fuel fuel r).1 := by
  intro fuel
  induction fuel with
  | zero =>
    intro r h
    exact h
  | succ fuel ih =>
    intro r h
    obtain ⟨hcap, hbuf, hacct, hds, hwin⟩ := h
    cases hf : SegMap.find? r.segments r.next_byte_idx with
    | none =>
      simp only [Reassembler.try_write_fuel, hf]
      exact ⟨hcap, hbuf, hacct, hds, hwin⟩
    | some data =>
      have hmem : (r.next_byte_idx, data) ∈ r.segments := SegMap.mem_of_find?_eq_some hf
      obtain ⟨hdne, hdlo, hdhi⟩ := hwin _ hmem
      dsimp only at hdlo hdhi
      have hdlen : 0 < data.length := List.length_pos.mpr hdne
      have hsk : SegMap.SortedKeys r.segments :=
        SegMap.sortedKeys_of_disjointSorted hds (fun p hp => (hwin p hp).1)
      have hrem : ByteStream.remaining_capacity r.output =
          cap - r.output.buffer.length := by
        unfold ByteStream.remaining_capacity
        rw [hcap]
      -- facts about the survivors of the erase
      have herased : ∀ p ∈ SegMap.erase r.segments r.next_byte_idx,
          p.2 ≠ [] ∧ r.next_byte_idx + data.length ≤ p.1 ∧
          p.1 + p.2.length ≤ r.next_byte_idx + (cap - r.output.buffer.length) := by
        intro p hp
        have hpm := SegMap.mem_of_mem_erase hp
        have hkne := SegMap.key_ne_of_mem_erase hsk hp
        obtain ⟨hne, hlo2, hhi2⟩ := hwin p hpm
        have hplen : 0 < p.2.length := List.length_pos.mpr hne
        have hda := SegMap.disjoint_of_mem hds hpm hmem
          (fun hc => hkne (congrArg Prod.fst hc))
        dsimp only at hda
        refine ⟨hne, ?_, hhi2⟩
        rcases hda with h2 | h2 <;> omega
      cases hw : ByteStream.write r.output data with
      | error msg =>
        simp only [Reassembler.try_write_fuel, hf, hw]
        dsimp only [ReassemblerInv]
        refine ⟨hcap, hbuf, hacct, SegMap.disjointSorted_erase hds _, ?_⟩
        intro p hp
        obtain ⟨hne, h2, h3⟩ := herased p hp
        exact ⟨hne, by omega, h3⟩
      | ok pr =>
        obtain ⟨out, n⟩ := pr
        obtain ⟨hcl, hn, hout⟩ := ByteStream.write_ok hw
        have hnle : n ≤ cap - r.output.buffer.length := by
          rw [hrem] at hn
          omega
        have hnlen : n ≤ data.length := by omega
        have htake : (data.take n).length = n := by simp; omega
        have houtlen : out.buffer.length = r.output.buffer.length + n := by
          rw [hout]
          simp [htake]
        have houtw : out.bytes_written = r.output.bytes_written + n := by rw [hout]
        have houtr : out.bytes_read = r.output.bytes_read := by rw [hout]
        have houtcap : out.capacity = cap := by rw [hout]; exact hcap
        by_cases hn0 : n = 0
        · simp only [Reassembler.try_write_fuel, hf, hw, if_pos hn0]
          dsimp only [ReassemblerInv]
          refine ⟨houtcap, by omega, by omega, ?_, ?_⟩
          · refine SegMap.disjointSorted_insert (SegMap.disjointSorted_erase hds _)
              (fun p hp => (herased p hp).1) ?_
            intro p hp
            obtain ⟨hne, h2, h3⟩ := herased p hp
            exact ⟨fun h4 => by omega, fun _ => by omega⟩
          · intro p hp
            rcases SegMap.mem_insert_elim hp with h1 | h1
            · subst h1
              dsimp only
              refine ⟨hdne, le_refl _, ?_⟩
              omega
            · obtain ⟨hne, h2, h3⟩ := herased p h1
              exact ⟨hne, by omega, by omega⟩
        · simp only [Reassembler.try_write_fuel, hf, hw, if_neg hn0]
          by_cases hpart : n < data.length
          · rw [if_pos hpart]
            dsimp only [ReassemblerInv]
            refine ⟨houtcap, by omega, by omega, ?_, ?_⟩
            · refine SegMap.disjointSorted_insert (SegMap.disjointSorted_erase hds _)
                (fun p hp => (herased p hp).1) ?_
              intro p hp
              obtain ⟨hne, h2, h3⟩ := herased p hp
              have hplen : 0 < p.2.length := List.length_pos.mpr hne
              constructor
              · intro h4
                omega
              · intro h4
                simp only [List.length_drop]
                omega
            · intro p hp
              rcases SegMap.mem_insert_elim hp with h1 | h1
              · subst h1
                dsimp only
                refine ⟨?_, le_refl _, ?_⟩
                · intro hc
                  have := congrArg List.length hc
                  simp at this
                  omega
                · simp only [List.length_drop]
                  omega
              · obtain ⟨hne, h2, h3⟩ := herased p h1
                exact ⟨hne, by omega, by omega⟩
          · rw [if_neg hpart]
            have hnfull : n = data.length := by omega
            have hinv' : ReassemblerInv cap
                { r with segments := SegMap.erase r.segments r.next_byte_idx,
                         output := out, next_byte_idx := r.next_byte_idx + n } := by
              dsimp only [ReassemblerInv]
              refine ⟨houtcap, by omega, by omega,
                SegMap.disjointSorted_erase hds _, ?_⟩
              intro p hp
              obtain ⟨hne, h2, h3⟩ := herased p hp
              exact ⟨hne, by omega, by omega⟩
            by_cases hdone : Reassembler.is_done
                { r with segments := SegMap.erase r.segments r.next_byte_idx,
                         output := out, next_byte_idx := r.next_byte_idx + n } = true
            · rw [if_pos hdone]
              obtain ⟨k1, k2, k3, k4, k5⟩ := hinv'
              exact ⟨k1, k2, k3, k4, k5⟩
            · rw [if_neg hdone]
              exact ih _ hinv'
    
/-- `insert` preserves the structural invariant. -/
theorem reassembler_insert_inv {cap : Nat} {r : Reassembler} (h : ReassemblerInv cap r)
    (seq_num : Nat) (data : List Nat) (is_last : Bool) :
    ReassemblerInv cap (Reassembler.insert r seq_num data is_last).1 := by
  simp only [Reassembler.insert]
  by_cases h1 : (data.isEmpty && !is_last) = true
  · rw [if_pos h1]
    exact h
  · rw [if_neg h1]
    have hr1 : ReassemblerInv cap
        (if is_last then
          { r with last_recvd := true,
                   last_byte_idx := some (seq_num + data.length) }
         else r) := by
      by_cases hl : is_last
      · rw [if_pos hl]
        exact ⟨h.1, h.2.1, h.2.2.1, h.2.2.2.1, h.2.2.2.2⟩
      · rw [if_neg hl]
        exact h
    by_cases hdone : Reassembler.is_done
        (if is_last then
          { r with last_recvd := true,
                   last_byte_idx := some (seq_num + data.length) }
         else r) = true
    · rw [if_pos hdone]
      obtain ⟨k1, k2, k3, k4, k5⟩ := hr1
      exact ⟨k1, k2, k3, k4, k5⟩
    · rw [if_neg hdone]
      exact try_write_fuel_inv _ _ (insert_buffer_inv hr1 seq_num data)

/-- `read` preserves the structural invariant. -/
theorem reassembler_read_inv {cap : Nat} {r : Reassembler} (h : ReassemblerInv cap r)
    (n : Nat) : ReassemblerInv cap (Reassembler.read r n).1 := by
  obtain ⟨hcap, hbuf, hacct, hds, hwin⟩ := h
  refine ⟨hcap, ?_, ?_, hds, ?_⟩
  · simp [Reassembler.read, ByteStream.read]
    omega
  · simp [Reassembler.read, ByteStream.read]
    omega
  · intro p hp
    obtain ⟨hne, h2, h3⟩ := hwin p hp
    refine ⟨hne, h2, ?_⟩
    simp only [Reassembler.read, ByteStream.read]
    simp only [List.length_drop]
    omega

/-- Every reachable reassembler state satisfies the structural invariant. -/
theorem reassembler_inv_reachable {cap : Nat} {r : Reassembler}
    (h : ReassemblerReachable cap r) : ReassemblerInv cap r := by
  induction h with
  | init => exact reassemblerInv_new cap
  | insert seq_num data is_last _ ih => exact reassembler_insert_inv ih seq_num data is_last
  | read n _ ih => exact reassembler_read_inv ih n

/-- Dropping from a slice advances its start. -/
theorem listSlice_drop {S : List Nat} (a b d : Nat) :
    (listSlice S a b).drop d = listSlice S (a + d) b := by
  unfold listSlice
  rw [List.drop_take, List.drop_drop]
  congr 1
  omega

/-- `insert_buffer` of an in-bounds slice of `S` on a good state: the result
is pre-good with all other fields untouched, old coverage is kept, and the
whole inserted range becomes covered. -/
theorem insert_buffer_pre_good {S : List Nat} {cap : Nat} {r : Reassembler}
    (hcap : S.length ≤ cap) (hg : ReassemblerGood S cap r)
    (seq_num len : Nat) (hin : seq_num + len ≤ S.length) :
    ReassemblerPreGood S cap
      (Reassembler.insert_buffer r seq_num (listSlice S seq_num (seq_num + len))) ∧
    (Reassembler.insert_buffer r seq_num (listSlice S seq_num (seq_num + len))).output
      = r.output ∧
    (Reassembler.insert_buffer r seq_num
      (listSlice S seq_num (seq_num + len))).next_byte_idx = r.next_byte_idx ∧
    (Reassembler.insert_buffer r seq_num
      (listSlice S seq_num (seq_num + len))).last_byte_idx = r.last_byte_idx ∧
    (Reassembler.insert_buffer r seq_num
      (listSlice S seq_num (seq_num + len))).last_recvd = r.last_recvd ∧
    (∀ i, coveredIdx r i →
      coveredIdx (Reassembler.insert_buffer r seq_num
        (listSlice S seq_num (seq_num + len))) i) ∧
    (∀ i, seq_num ≤ i → i < seq_num + len →
      coveredIdx (Reassembler.insert_buffer r seq_num
        (listSlice S seq_num (seq_num + len))) i) := by
  obtain ⟨g1, g2, g3, g4, g5, g6, g7, g8, g9, g10⟩ := hg
  have hdlen : (listSlice S seq_num (seq_num + len)).length = len := by
    rw [listSlice_length hin (by omega)]
    omega
  have hpre0 : ReassemblerPreGood S cap r :=
    ⟨g1, g2, g3, g4, g5, g6,
      fun p hp => ⟨(g7 p hp).1, le_of_lt (g7 p hp).2.1, (g7 p hp).2.2⟩, g8, g9, g10⟩
  have hblen : r.output.buffer.length = r.next_byte_idx := by
    rw [g3]
    simp
    omega
  have hrem : ByteStream.remaining_capacity r.output = cap - r.next_byte_idx := by
    unfold ByteStream.remaining_capacity
    rw [g1, hblen]
  simp only [Reassembler.insert_buffer]
  by_cases h1 : (listSlice S seq_num (seq_num + len)).isEmpty
  · rw [if_pos h1]
    have hl0 : len = 0 := by
      have h2 := congrArg List.length (List.isEmpty_iff.mp h1)
      rw [hdlen] at h2
      simpa using h2
    exact ⟨hpre0, rfl, rfl, rfl, rfl, fun i h => h,
      fun i hi1 hi2 => absurd hi2 (by omega)⟩
  · rw [if_neg h1]
    have hlpos : 0 < len := by
      rcases Nat.eq_zero_or_pos len with h | h
      · exfalso
        apply h1
        rw [List.isEmpty_iff]
        exact List.length_eq_zero.mp (by omega)
      · exact h
    by_cases h2 : seq_num + (listSlice S seq_num (seq_num + len)).length ≤ r.next_byte_idx
    · rw [if_pos h2]
      rw [hdlen] at h2
      exact ⟨hpre0, rfl, rfl, rfl, rfl, fun i h => h,
        fun i hi1 hi2 => Or.inl (by omega)⟩
    · rw [if_neg h2]
      rw [hdlen] at h2
      push_neg at h2
      have he : min (seq_num + (listSlice S seq_num (seq_num + len)).length)
          (r.next_byte_idx + ByteStream.remaining_capacity r.output) = seq_num + len := by
        rw [hdlen, hrem]
        omega
      rw [he]
      have hestart : ¬ (seq_num + len ≤ max seq_num r.next_byte_idx) := by omega
      rw [if_neg hestart]
      have hwin_eq : listSlice (listSlice S seq_num (seq_num + len))
          (max seq_num r.next_byte_idx - seq_num) (seq_num + len - seq_num) =
          listSlice S (max seq_num r.next_byte_idx) (seq_num + len) := by
        apply list_ext_getD
        · rw [listSlice_length (by rw [hdlen]; omega) (by omega),
            listSlice_length hin (by omega)]
          omega
        · intro j hj
          rw [listSlice_length (by rw [hdlen]; omega) (by omega)] at hj
          rw [listSlice_getD (by omega) (by rw [hdlen]; omega),
            listSlice_getD (by omega) hin,
            listSlice_getD (by omega) hin]
          congr 1
          omega
      rw [hwin_eq]
      have hse : max seq_num r.next_byte_idx < seq_num + len := by omega
      have hwl : (listSlice S (max seq_num r.next_byte_idx) (seq_num + len)).length
          = seq_num + len - max seq_num r.next_byte_idx := listSlice_length hin (by omega)
      have hcore := mergeInto_core r.segments (max seq_num r.next_byte_idx)
        (seq_num + len) (listSlice S (max seq_num r.next_byte_idx) (seq_num + len))
        r.next_byte_idx S.length hse hwl g6
        (fun p hp => ⟨(g7 p hp).1, le_of_lt (g7 p hp).2.1, (g7 p hp).2.2.1⟩)
        (by omega) hin
      obtain ⟨k1, k2, k3, k4, k5, k6⟩ := hcore
      refine ⟨⟨g1, g2, g3, g4, g5, k1, ?_, g8, g9, g10⟩, rfl, rfl, rfl, rfl, ?_, ?_⟩
      · intro p hp
        obtain ⟨hne, hple, hphi⟩ := k2 p hp
        refine ⟨hne, hple, hphi, ?_⟩
        rcases k3 p hp with hold | ⟨x, hx, hxe, hpe⟩ | hpm
        · exact (g7 p hold).2.2.2
        · obtain ⟨xne, xgt, xhi, xcontent⟩ := g7 x hx
          have hdne : x.2.drop (seq_num + len - x.1) ≠ [] := by
            rw [hpe] at hne
            exact hne
          have hdp : 0 < (x.2.drop (seq_num + len - x.1)).length :=
            List.length_pos.mpr hdne
          simp only [List.length_drop] at hdp
          rw [hpe]
          dsimp only
          conv_lhs => rw [xcontent]
          rw [listSlice_drop]
          simp only [List.length_drop]
          have e1 : x.1 + (seq_num + len - x.1) = seq_num + len := by omega
          have e2 : seq_num + len + (x.2.length - (seq_num + len - x.1)) =
              x.1 + x.2.length := by omega
          rw [e1, e2]
        · have hne : p.2 ≠ [] := (k2 p hp).1
          have hmle : (mergeFold r.segments (max seq_num r.next_byte_idx) (seq_num + len)
              (listSlice S (max seq_num r.next_byte_idx) (seq_num + len))).m_start
              ≤ seq_num + len := by
            by_contra hco
            push_neg at hco
            apply hne
            rw [hpm]
            dsimp only
            exact List.length_eq_zero.mp (by omega)
          have hre : (mergeFold r.segments (max seq_num r.next_byte_idx) (seq_num + len)
                (listSlice S (max seq_num r.next_byte_idx) (seq_num + len))).m_start +
              (listOverlay (mergeFold r.segments (max seq_num r.next_byte_idx)
                  (seq_num + len)
                  (listSlice S (max seq_num r.next_byte_idx) (seq_num + len))).merged
                (max seq_num r.next_byte_idx -
                  (mergeFold r.segments (max seq_num r.next_byte_idx) (seq_num + len)
                    (listSlice S (max seq_num r.next_byte_idx)
                      (seq_num + len))).m_start)
                (listSlice S (max seq_num r.next_byte_idx) (seq_num + len))).length =
              seq_num + len := by
            rw [k4]
            omega
          rw [hpm]
          dsimp only
          rw [hre]
          apply list_ext_getD
          · rw [k4, listSlice_length hin hmle]
          · intro j hj
            rw [k4] at hj
            obtain ⟨hmid, hpre⟩ := k5 j hj
            rw [listSlice_getD (by omega) hin]
            rcases Nat.lt_or_ge ((mergeFold r.segments (max seq_num r.next_byte_idx)
                (seq_num + len)
                (listSlice S (max seq_num r.next_byte_idx) (seq_num + len))).m_start + j)
                (max seq_num r.next_byte_idx) with hc | hc
            · obtain ⟨x, hx, hxk, hxlen, hxval⟩ := hpre hc
              rw [hxval]
              obtain ⟨xne, xgt, xhi, xcontent⟩ := g7 x hx
              conv_lhs => rw [xcontent]
              rw [listSlice_getD (by omega) xhi]
              congr 1
              omega
            · rw [hmid hc]
              rw [listSlice_getD (by omega) hin]
              congr 1
              omega
      · intro i hi
        rcases hi with h | ⟨p, hp, hp1, hp2⟩
        · exact Or.inl h
        · obtain ⟨q, hq, hq1, hq2⟩ := k6 i (Or.inl ⟨p, hp, hp1, hp2⟩)
          exact Or.inr ⟨q, hq, hq1, hq2⟩
      · intro i hi1 hi2
        rcases Nat.lt_or_ge i (max seq_num r.next_byte_idx) with hc | hc
        · exact Or.inl (by dsimp only; omega)
        · obtain ⟨q, hq, hq1, hq2⟩ := k6 i (Or.inr ⟨hc, by omega⟩)
          exact Or.inr ⟨q, hq, hq1, hq2⟩

/-- `try_write` with enough fuel on a pre-good state: it commits every
contiguous pending byte, restores strict goodness, never reports an error,
and keeps every covered byte covered. -/
theorem try_write_fuel_good {S : List Nat} {cap : Nat} (hcap : S.length ≤ cap) :
    ∀ (fuel : Nat) (r : Reassembler), ReassemblerPreGood S cap r →
      r.segments.length < fuel →
      ReassemblerGood S cap (Reassembler.try_write_fuel fuel r).1 ∧
      (Reassembler.try_write_fuel fuel r).2 = false ∧
      (∀ i, coveredIdx r i → coveredIdx (Reassembler.try_write_fuel fuel r).1 i) := by
  intro fuel
  induction fuel with
  | zero =>
    intro r _ hf
    exact absurd hf (by omega)
  | succ fuel ih =>
    intro r hg hf
    obtain ⟨g1, g2, g3, g4, g5, g6, g7, g8, g9, g10⟩ := hg
    have hblen : r.output.buffer.length = r.next_byte_idx := by
      rw [g3]
      simp
      omega
    have hsk : SegMap.SortedKeys r.segments :=
      SegMap.sortedKeys_of_disjointSorted g6 (fun p hp => (g7 p hp).1)
    cases hfind : SegMap.find? r.segments r.next_byte_idx with
    | none =>
      simp only [Reassembler.try_write_fuel, hfind]
      refine ⟨⟨g1, g2, g3, g4, g5, g6, ?_, g8, g9, g10⟩, by trivial, fun i h => h⟩
      intro p hp
      obtain ⟨hne, hle, hhi, hcontent⟩ := g7 p hp
      refine ⟨hne, ?_, hhi, hcontent⟩
      rcases Nat.lt_or_ge r.next_byte_idx p.1 with h | h
      · exact h
      · exfalso
        have h1 : (p.1, p.2) ∈ r.segments := by
          rw [Prod.mk.eta]
          exact hp
        have h2 : p.1 = r.next_byte_idx := by omega
        rw [h2] at h1
        exact (SegMap.find?_ne_none_of_mem h1) hfind
    | some data =>
      have hmem := SegMap.mem_of_find?_eq_some hfind
      obtain ⟨hdne, hdle, hdhi, hdcontent⟩ := g7 _ hmem
      dsimp only at hdle hdhi hdcontent
      have hdlen : 0 < data.length := List.length_pos.mpr hdne
      cases hw : ByteStream.write r.output data with
      | error m =>
        exfalso
        have hcl := ByteStream.write_error hw
        have := g10 hcl
        omega
      | ok pr =>
        obtain ⟨out, n⟩ := pr
        obtain ⟨hcl, hn, hout⟩ := ByteStream.write_ok hw
        have hrem : ByteStream.remaining_capacity r.output = cap - r.next_byte_idx := by
          unfold ByteStream.remaining_capacity
          rw [g1, hblen]
        have hnfull : n = data.length := by
          rw [hrem] at hn
          omega
        simp only [Reassembler.try_write_fuel, hfind, hw]
        rw [if_neg (by omega : ¬ n = 0), if_neg (by omega : ¬ n < data.length)]
        have hsl : listSlice S r.next_byte_idx (r.next_byte_idx + data.length) =
            (S.drop r.next_byte_idx).take data.length := by
          unfold listSlice
          congr 1
          omega
        have houtbuf : out.buffer = S.take (r.next_byte_idx + n) := by
          rw [hout]
          dsimp only
          rw [hnfull, List.take_length, g3]
          conv_lhs => rw [hdcontent]
          rw [hsl, ← List.take_add]
        have houtw : out.bytes_written = r.next_byte_idx + n := by
          rw [hout]
          dsimp only
          rw [g4]
        have houtr : out.bytes_read = 0 := by rw [hout]; exact g2
        have houtcap : out.capacity = cap := by rw [hout]; exact g1
        have houtcl : out.closed = false := by rw [hout]; exact hcl
        have herased : ∀ p ∈ SegMap.erase r.segments r.next_byte_idx,
            p.2 ≠ [] ∧ r.next_byte_idx + n ≤ p.1 ∧ p.1 + p.2.length ≤ S.length ∧
            p.2 = listSlice S p.1 (p.1 + p.2.length) := by
          intro p hp
          have hpm := SegMap.mem_of_mem_erase hp
          have hkne := SegMap.key_ne_of_mem_erase hsk hp
          obtain ⟨hne, hle2, hhi2, hcontent2⟩ := g7 p hpm
          have hplen : 0 < p.2.length := List.length_pos.mpr hne
          have hda := SegMap.disjoint_of_mem g6 hpm hmem
            (fun hc => hkne (congrArg Prod.fst hc))
          dsimp only at hda
          refine ⟨hne, ?_, hhi2, hcontent2⟩
          rcases hda with h3 | h3 <;> omega
        have hpre' : ReassemblerPreGood S cap
            { r with segments := SegMap.erase r.segments r.next_byte_idx, output := out, next_byte_idx := r.next_byte_idx + n } := by
          refine ⟨houtcap, houtr, houtbuf, houtw, by dsimp only; omega,
            SegMap.disjointSorted_erase g6 _, ?_, g8, g9, ?_⟩
          · intro p hp
            obtain ⟨hne, h2, h3, h4⟩ := herased p hp
            exact ⟨hne, h2, h3, h4⟩
          · intro hc
            dsimp only at hc
            rw [houtcl] at hc
            cases hc
        have hcov' : ∀ i, coveredIdx r i →
            coveredIdx { r with segments := SegMap.erase r.segments r.next_byte_idx, output := out, next_byte_idx := r.next_byte_idx + n } i := by
          intro i hi
          rcases hi with h | ⟨p, hp, hp1, hp2⟩
          · exact Or.inl (by dsimp only; omega)
          · by_cases hpk : p.1 = r.next_byte_idx
            · have hpe : p = (r.next_byte_idx, data) :=
                SegMap.eq_of_mem_of_key_eq hsk hp hmem hpk
              rw [hpe] at hp2
              dsimp only at hp2
              exact Or.inl (by dsimp only; omega)
            · exact Or.inr ⟨p, SegMap.mem_erase_of_mem hp hpk, hp1, hp2⟩
        by_cases hdone : Reassembler.is_done
            { r with segments := SegMap.erase r.segments r.next_byte_idx, output := out, next_byte_idx := r.next_byte_idx + n } = true
        · rw [if_pos hdone]
          unfold Reassembler.is_done at hdone
          dsimp only at hdone
          rw [Bool.and_eq_true] at hdone
          obtain ⟨hlr, hmatch⟩ := hdone
          have hlast := g9 hlr
          rw [hlast] at hmatch
          simp only [decide_eq_true_eq] at hmatch
          have hnext : r.next_byte_idx + n = S.length := by omega
          refine ⟨⟨houtcap, houtr, ?_, houtw, by dsimp only; omega, ?_, ?_, g8, g9, ?_⟩,
            rfl, ?_⟩
          · dsimp only
            exact houtbuf
          · exact SegMap.disjointSorted_erase g6 _
          · intro p hp
            obtain ⟨hne, h2, h3, h4⟩ := herased p hp
            have hplen : 0 < p.2.length := List.length_pos.mpr hne
            exact absurd h3 (by omega)
          · intro _
            dsimp only
            omega
          · intro i hi
            have := hcov' i hi
            rcases this with h | ⟨p, hp, hp1, hp2⟩
            · exact Or.inl h
            · obtain ⟨hne, h2, h3, h4⟩ := herased p hp
              have hplen : 0 < p.2.length := List.length_pos.mpr hne
              exact absurd h3 (by omega)
        · rw [if_neg hdone]
          have hfl : (SegMap.erase r.segments r.next_byte_idx).length < fuel := by
            have := SegMap.length_erase_lt hfind
            omega
          obtain ⟨ihg, ihf, ihc⟩ := ih _ hpre' hfl
          exact ⟨ihg, ihf, fun i hi => ihc i (hcov' i hi)⟩

/-- `insert` of an in-bounds slice of `S` (with `is_last` only on a
final slice) keeps the state good, reports no error, keeps old coverage
and covers the inserted range. -/
theorem insert_good {S : List Nat} {cap : Nat} {r : Reassembler}
    (hcap : S.length ≤ cap) (hg : ReassemblerGood S cap r)
    (seq_num len : Nat) (is_last : Bool) (hin : seq_num + len ≤ S.length)
    (hlast : is_last = true → seq_num + len = S.length) :
    ReassemblerGood S cap
      (Reassembler.insert r seq_num (listSlice S seq_num (seq_num + len)) is_last).1 ∧
    (Reassembler.insert r seq_num (listSlice S seq_num (seq_num + len)) is_last).2
      = false ∧
    (∀ i, coveredIdx r i → coveredIdx
      (Reassembler.insert r seq_num (listSlice S seq_num (seq_num + len)) is_last).1 i) ∧
    (∀ i, seq_num ≤ i → i < seq_num + len → coveredIdx
      (Reassembler.insert r seq_num (listSlice S seq_num (seq_num + len)) is_last).1 i)
    := by
  have hdlen : (listSlice S seq_num (seq_num + len)).length = len := by
    rw [listSlice_length hin (by omega)]
    omega
  have main : ∀ r1 : Reassembler, ReassemblerGood S cap r1 →
      r1.segments = r.segments → r1.next_byte_idx = r.next_byte_idx →
      ReassemblerGood S cap
        (if Reassembler.is_done r1 = true then
          ({ r1 with output := ByteStream.close r1.output }, false)
        else Reassembler.try_write (Reassembler.insert_buffer r1 seq_num
          (listSlice S seq_num (seq_num + len)))).1 ∧
      (if Reassembler.is_done r1 = true then
          ({ r1 with output := ByteStream.close r1.output }, false)
        else Reassembler.try_write (Reassembler.insert_buffer r1 seq_num
          (listSlice S seq_num (seq_num + len)))).2 = false ∧
      (∀ i, coveredIdx r i → coveredIdx
        (if Reassembler.is_done r1 = true then
          ({ r1 with output := ByteStream.close r1.output }, false)
        else Reassembler.try_write (Reassembler.insert_buffer r1 seq_num
          (listSlice S seq_num (seq_num + len)))).1 i) ∧
      (∀ i, seq_num ≤ i → i < seq_num + len → coveredIdx
        (if Reassembler.is_done r1 = true then
          ({ r1 with output := ByteStream.close r1.output }, false)
        else Reassembler.try_write (Reassembler.insert_buffer r1 seq_num
          (listSlice S seq_num (seq_num + len)))).1 i) := by
    intro r1 hg1 hseg hnext
    obtain ⟨g1, g2, g3, g4, g5, g6, g7, g8, g9, g10⟩ := hg1
    by_cases hdone : Reassembler.is_done r1 = true
    · rw [if_pos hdone]
      unfold Reassembler.is_done at hdone
      rw [Bool.and_eq_true] at hdone
      obtain ⟨hlr, hmatch⟩ := hdone
      have hlast1 := g9 hlr
      rw [hlast1] at hmatch
      simp only [decide_eq_true_eq] at hmatch
      have hn : r1.next_byte_idx = S.length := by omega
      refine ⟨⟨g1, g2, g3, g4, g5, g6, g7, g8, g9, fun _ => hn⟩, rfl, ?_, ?_⟩
      · intro i hi
        rcases hi with h | ⟨p, hp, h1, h2⟩
        · exact Or.inl (by dsimp only; omega)
        · refine Or.inr ⟨p, ?_, h1, h2⟩
          dsimp only
          rw [hseg]
          exact hp
      · intro i hi1 hi2
        exact Or.inl (by dsimp only; omega)
    · rw [if_neg hdone]
      obtain ⟨hpre, hout, hnxt, hlby, hlrc, hcov_old, hcov_new⟩ :=
        insert_buffer_pre_good hcap
          ⟨g1, g2, g3, g4, g5, g6, g7, g8, g9, g10⟩ seq_num len hin
      unfold Reassembler.try_write
      obtain ⟨tg, tf, tc⟩ := try_write_fuel_good hcap
        ((Reassembler.insert_buffer r1 seq_num
          (listSlice S seq_num (seq_num + len))).segments.length + 1)
        _ hpre (by omega)
      refine ⟨tg, tf, ?_, ?_⟩
      · intro i hi
        apply tc
        apply hcov_old
        rcases hi with h | ⟨p, hp, h1, h2⟩
        · exact Or.inl (by rw [hnext]; exact h)
        · exact Or.inr ⟨p, by rw [hseg]; exact hp, h1, h2⟩
      · intro i hi1 hi2
        exact tc i (hcov_new i hi1 hi2)
  simp only [Reassembler.insert]
  by_cases h1 : ((listSlice S seq_num (seq_num + len)).isEmpty && !is_last) = true
  · rw [if_pos h1]
    rw [Bool.and_eq_true] at h1
    have hl0 : len = 0 := by
      have h2 := congrArg List.length (List.isEmpty_iff.mp h1.1)
      rw [hdlen] at h2
      simpa using h2
    exact ⟨hg, rfl, fun i h => h, fun i hi1 hi2 => absurd hi2 (by omega)⟩
  · rw [if_neg h1]
    by_cases hl : is_last = true
    · rw [if_pos hl]
      refine main _ ⟨hg.1, hg.2.1, hg.2.2.1, hg.2.2.2.1, hg.2.2.2.2.1, hg.2.2.2.2.2.1,
        hg.2.2.2.2.2.2.1, ?_, ?_, hg.2.2.2.2.2.2.2.2.2⟩ rfl rfl
      · refine Or.inr ?_
        dsimp only
        rw [hdlen, hlast hl]
      · intro _
        dsimp only
        rw [hdlen, hlast hl]
    · rw [if_neg hl]
      exact main r hg rfl rfl

/-- Running a list of in-bounds slice insertions from a good state: the
state stays good, the error flag is untouched, old coverage is kept, and
every inserted range becomes covered. -/
theorem runInserts_good {S : List Nat} {cap : Nat} (hcap : S.length ≤ cap) :
    ∀ (ops : List (Nat × Nat × Bool)) (r : Reassembler) (b : Bool),
      ReassemblerGood S cap r →
      (∀ op ∈ ops, op.1 + op.2.1 ≤ S.length ∧
        (op.2.2 = true → op.1 + op.2.1 = S.length)) →
      ReassemblerGood S cap (ops.foldl
        (fun acc op =>
          ((Reassembler.insert acc.1 op.1 (listSlice S op.1 (op.1 + op.2.1)) op.2.2).1,
            acc.2 || (Reassembler.insert acc.1 op.1
              (listSlice S op.1 (op.1 + op.2.1)) op.2.2).2)) (r, b)).1 ∧
      (ops.foldl
        (fun acc op =>
          ((Reassembler.insert acc.1 op.1 (listSlice S op.1 (op.1 + op.2.1)) op.2.2).1,
            acc.2 || (Reassembler.insert acc.1 op.1
              (listSlice S op.1 (op.1 + op.2.1)) op.2.2).2)) (r, b)).2 = b ∧
      (∀ i, coveredIdx r i → coveredIdx (ops.foldl
        (fun acc op =>
          ((Reassembler.insert acc.1 op.1 (listSlice S op.1 (op.1 + op.2.1)) op.2.2).1,
            acc.2 || (Reassembler.insert acc.1 op.1
              (listSlice S op.1 (op.1 + op.2.1)) op.2.2).2)) (r, b)).1 i) ∧
      (∀ op ∈ ops, ∀ i, op.1 ≤ i → i < op.1 + op.2.1 → coveredIdx (ops.foldl
        (fun acc op =>
          ((Reassembler.insert acc.1 op.1 (listSlice S op.1 (op.1 + op.2.1)) op.2.2).1,
            acc.2 || (Reassembler.insert acc.1 op.1
              (listSlice S op.1 (op.1 + op.2.1)) op.2.2).2)) (r, b)).1 i) := by
  intro ops
  induction ops with
  | nil =>
    intro r b hg _
    exact ⟨hg, rfl, fun i h => h, fun op hop => absurd hop (List.not_mem_nil op)⟩
  | cons op ops ih =>
    intro r b hg hops
    obtain ⟨hop1, hop2⟩ := hops op (List.mem_cons_self _ _)
    obtain ⟨ig, iflag, icov_old, icov_new⟩ :=
      insert_good hcap hg op.1 op.2.1 op.2.2 hop1 hop2
    simp only [List.foldl_cons]
    rw [iflag, Bool.or_false]
    obtain ⟨jg, jflag, jcov_old, jcov_new⟩ :=
      ih (Reassembler.insert r op.1 (listSlice S op.1 (op.1 + op.2.1)) op.2.2).1 b ig
        (fun o ho => hops o (List.mem_cons_of_mem _ ho))
    refine ⟨jg, jflag, ?_, ?_⟩
    · intro i hi
      exact jcov_old i (icov_old i hi)
    · intro o ho i hi1 hi2
      rcases List.mem_cons.mp ho with h | h
      · subst h
        exact jcov_old i (icov_new i hi1 hi2)
      · exact jcov_new o h i hi1 hi2

/-- A good state whose source is fully covered has committed everything. -/
theorem good_complete {S : List Nat} {cap : Nat} {r : Reassembler}
    (hg : ReassemblerGood S cap r)
    (hcov : ∀ i, i < S.length → coveredIdx r i) :
    r.output.buffer = S ∧ r.output.bytes_written = S.length := by
  obtain ⟨g1, g2, g3, g4, g5, g6, g7, g8, g9, g10⟩ := hg
  have hnext : r.next_byte_idx = S.length := by
    by_contra hne
    have h5 : r.next_byte_idx < S.length := lt_of_le_of_ne g5 hne
    rcases hcov _ h5 with h | ⟨p, hp, h1, h2⟩
    · omega
    · obtain ⟨_, hgt, _, _⟩ := g7 p hp
      omega
  constructor
  · rw [g3, hnext, List.take_length]
  · rw [g4, hnext]

/-- C1: for every byte string `S`, any list of in-bounds slice insertions
(`(first_index, length, is_last)`, each inserting the slice of `S` at its
index, with `is_last` only on slices ending at `|S|`) whose ranges
together cover `[0, |S|)`, run in any order into a fresh `Reassembler`
over a stream of capacity at least `|S|`: the stream ends up holding
exactly the bytes of `S` in order, `|S|` bytes are committed, and no
insert reports an error — no byte is lost or duplicated. -/
theorem reassembler_ordering {S : List Nat} {cap : Nat} {ops : List (Nat × Nat × Bool)}
    (hcap : S.length ≤ cap)
    (hops : ∀ op ∈ ops, op.1 + op.2.1 ≤ S.length ∧
      (op.2.2 = true → op.1 + op.2.1 = S.length))
    (hcover : ∀ i, i < S.length → ∃ op ∈ ops, op.1 ≤ i ∧ i < op.1 + op.2.1) :
    (runInserts S (Reassembler.new (ByteStream.new cap)) ops).1.output.buffer = S ∧
    (runInserts S (Reassembler.new (ByteStream.new cap)) ops).1.output.bytes_written
      = S.length ∧
    (runInserts S (Reassembler.new (ByteStream.new cap)) ops).2 = false := by
  have hg0 : ReassemblerGood S cap (Reassembler.new (ByteStream.new cap)) :=
    ⟨rfl, rfl, rfl, rfl, Nat.zero_le _, List.Pairwise.nil,
      fun p hp => absurd hp (List.not_mem_nil p), Or.inl rfl,
      fun h => Bool.noConfusion h, fun h => Bool.noConfusion h⟩
  simp only [runInserts]
  obtain ⟨fg, fflag, _, fcov_new⟩ := runInserts_good hcap ops _ false hg0 hops
  have hcovall : ∀ i, i < S.length → coveredIdx
      (ops.foldl
        (fun acc op =>
          ((Reassembler.insert acc.1 op.1 (listSlice S op.1 (op.1 + op.2.1)) op.2.2).1,
            acc.2 || (Reassembler.insert acc.1 op.1
              (listSlice S op.1 (op.1 + op.2.1)) op.2.2).2))
        (Reassembler.new (ByteStream.new cap), false)).1 i := by
    intro i hi
    obtain ⟨op, hop, h1, h2⟩ := hcover i hi
    exact fcov_new op hop i h1 h2
  obtain ⟨hb, hw⟩ := good_complete fg hcovall
  exact ⟨hb, hw, fflag⟩

/-- Witness for C1 at `S = [7, 8, 9]`, capacity 3, segments of length one
inserted out of order with `is_last` on the final one. -/
theorem reassembler_ordering_witness :
    (runInserts [7, 8, 9] (Reassembler.new (ByteStream.new 3))
        [(1, 1, false), (0, 1, false), (2, 1, true)]).1.output.buffer = [7, 8, 9] ∧
    (runInserts [7, 8, 9] (Reassembler.new (ByteStream.new 3))
        [(1, 1, false), (0, 1, false), (2, 1, true)]).1.output.bytes_written = 3 ∧
    (runInserts [7, 8, 9] (Reassembler.new (ByteStream.new 3))
        [(1, 1, false), (0, 1, false), (2, 1, true)]).2 = false :=
  reassembler_ordering (by decide) (by decide)
    (by
      intro i hi
      have hi3 : i < 3 := by simpa using hi
      rcases (by omega : i = 0 ∨ i = 1 ∨ i = 2) with h | h | h <;> subst h <;> decide)

/-- C2: at every reachable state, `bytes_pending` plus the stream's buffer
occupancy (`bytes_written - bytes_read`) does not exceed the capacity, and
every pending segment lies inside
`[next_byte_idx, next_byte_idx + remaining_capacity)`. -/
theorem reassembler_capacity_safe {cap : Nat} {r : Reassembler}
    (h : ReassemblerReachable cap r) :
    Reassembler.bytes_pending r + (r.output.bytes_written - r.output.bytes_read) ≤ cap ∧
    (∀ p ∈ r.segments, r.next_byte_idx ≤ p.1 ∧
      p.1 + p.2.length ≤ r.next_byte_idx + ByteStream.remaining_capacity r.output) := by
  obtain ⟨hcap, hbuf, hacct, hds, hwin⟩ := reassembler_inv_reachable h
  have hrem : ByteStream.remaining_capacity r.output = cap - r.output.buffer.length := by
    unfold ByteStream.remaining_capacity
    rw [hcap]
  have hple := SegMap.pending_le hds r.next_byte_idx
    (r.next_byte_idx + (cap - r.output.buffer.length))
    (fun p hp => ⟨(hwin p hp).2.1, (hwin p hp).2.2⟩)
  constructor
  · unfold Reassembler.bytes_pending
    omega
  · intro p hp
    refine ⟨(hwin p hp).2.1, ?_⟩
    rw [hrem]
    exact (hwin p hp).2.2

/-- Witness for C2 at the reachable state reached by inserting two bytes
at index 2 into a fresh capacity-8 reassembler. -/
theorem reassembler_capacity_safe_witness :
    Reassembler.bytes_pending
        (Reassembler.insert (Reassembler.new (ByteStream.new 8)) 2 [5, 6] false).1 +
      ((Reassembler.insert (Reassembler.new (ByteStream.new 8))
          2 [5, 6] false).1.output.bytes_written -
        (Reassembler.insert (Reassembler.new (ByteStream.new 8))
          2 [5, 6] false).1.output.bytes_read) ≤ 8 ∧
    (∀ p ∈ (Reassembler.insert (Reassembler.new (ByteStream.new 8))
        2 [5, 6] false).1.segments,
      (Reassembler.insert (Reassembler.new (ByteStream.new 8))
          2 [5, 6] false).1.next_byte_idx ≤ p.1 ∧
      p.1 + p.2.length ≤
        (Reassembler.insert (Reassembler.new (ByteStream.new 8))
            2 [5, 6] false).1.next_byte_idx +
          ByteStream.remaining_capacity
            (Reassembler.insert (Reassembler.new (ByteStream.new 8))
              2 [5, 6] false).1.output) :=
  reassembler_capacity_safe
    (ReassemblerReachable.insert 2 [5, 6] false ReassemblerReachable.init)

/-- C9 (amended): at every reachable state the pending segments are
pairwise disjoint — an entry with the smaller key ends at or before the
start of any entry with a larger key.  Abutting entries are not merged
(shown separately by the counterexample), so equality can occur. -/
theorem reassembler_disjoint {cap : Nat} {r : Reassembler}
    (h : ReassemblerReachable cap r) :
    ∀ p ∈ r.segments, ∀ q ∈ r.segments, p.1 < q.1 → p.1 + p.2.length ≤ q.1 := by
  obtain ⟨_, _, _, hds, hwin⟩ := reassembler_inv_reachable h
  intro p hp q hq hlt
  have hda := SegMap.disjoint_of_mem hds hp hq
    (fun hc => absurd hlt (by rw [hc]; exact lt_irrefl _))
  rcases hda with h1 | h1
  · exact h1
  · have hq2 := List.length_pos.mpr (hwin q hq).1
    omega

/-- Witness for C9 at the reachable state holding the two abutting
segments `5 ↦ [98]` and `6 ↦ [99]`: they are disjoint with equality,
`5 + 1 ≤ 6`. -/
theorem reassembler_disjoint_witness :
    (5, [98]) ∈ (Reassembler.insert
        (Reassembler.insert (Reassembler.new (ByteStream.new 32)) 5 [98] false).1
        6 [99] false).1.segments ∧
    (6, [99]) ∈ (Reassembler.insert
        (Reassembler.insert (Reassembler.new (ByteStream.new 32)) 5 [98] false).1
        6 [99] false).1.segments ∧
    (5, [98]).1 + (5, [98]).2.length ≤ (6, [99]).1 := by
  refine ⟨by decide, by decide, ?_⟩
  exact reassembler_disjoint
    (ReassemblerReachable.insert 6 [99] false
      (ReassemblerReachable.insert 5 [98] false (@ReassemblerReachable.init 32)))
    (5, [98]) (by decide) (6, [99]) (by decide) (by decide)

/-- Adding a 13-bit value into a multiple of `8192` and masking with
`0xE000` recovers the multiple. -/
theorem land_high_mask (k f : Nat) (hk : k < 8) (hf : f < 8192) :
    (8192 * k + f) &&& 57344 = 8192 * k := by
  have hsplit : 8192 * k + f = 8192 * k ||| f :=
    Nat.mul_add_lt_is_or (show f < 2^13 by omega) k
  rw [hsplit, Nat.and_distrib_right]
  have h1 : f &&& 57344 = 0 := by
    apply Nat.eq_of_testBit_eq
    intro i
    rw [Nat.testBit_and, Nat.zero_testBit]
    rcases Nat.lt_or_ge i 13 with h | h
    · have h57 : Nat.testBit 57344 i = false := by
        interval_cases i <;> decide
      simp [h57]
    · have hfb : Nat.testBit f i = false :=
        Nat.testBit_lt_two_pow (lt_of_lt_of_le hf
          (Nat.pow_le_pow_right (show 0 < 2 by norm_num) h))
      simp [hfb]
  have h2 : (8192 * k) &&& 57344 = 8192 * k := by
    apply Nat.eq_of_testBit_eq
    intro i
    rw [Nat.testBit_and]
    have hk8 : 8192 * k = k <<< 13 := by
      rw [Nat.shiftLeft_eq]
      norm_num
      omega
    rcases Nat.lt_or_ge i 13 with h | h
    · have hb : Nat.testBit (8192 * k) i = false := by
        rw [hk8, Nat.testBit_shiftLeft]
        simp
        omega
      simp [hb]
    · rcases Nat.lt_or_ge i 16 with h16 | h16
      · have h57 : Nat.testBit 57344 i = true := by
          interval_cases i <;> decide
        simp [h57]
      · have hb : Nat.testBit (8192 * k) i = false :=
          Nat.testBit_lt_two_pow (lt_of_lt_of_le (by omega)
            (Nat.pow_le_pow_right (show 0 < 2 by norm_num) h16))
        have h57 : Nat.testBit 57344 i = false :=
          Nat.testBit_lt_two_pow (lt_of_lt_of_le (by norm_num)
            (Nat.pow_le_pow_right (show 0 < 2 by norm_num) h16))
        simp [hb, h57]
  rw [h1, h2]
  simp

/-- Packing a nibble above a nibble with `|||` is addition. -/
theorem lor_nibbles (v i : Nat) (hi : i < 16) : (v * 16) ||| i = v * 16 + i := by
  have h3 := Nat.mul_add_lt_is_or (show i < 2^4 by omega) v
  have h4 : (2:Nat)^4 = 16 := by norm_num
  rw [h4] at h3
  rw [Nat.mul_comm 16 v] at h3
  omega

/-- `x &&& 0x1FFF` is `x % 8192`. -/
theorem land_8191 (x : Nat) : x &&& 8191 = x % 8192 := by
  have := Nat.and_pow_two_sub_one_eq_mod x 13
  norm_num at this
  exact this

/-- `x &&& 0xFF` is `x % 256`. -/
theorem land_255 (x : Nat) : x &&& 255 = x % 256 := by
  have := Nat.and_pow_two_sub_one_eq_mod x 8
  norm_num at this
  exact this

/-- The single fold of a sum `S0` that does not double-carry, after the
complement checksum is added in, folds to exactly `0xFFFF`. -/
theorem checksum_fold_eq (S0 : Nat) (hS : S0 < 4294967296)
    (hnc : S0 % 65536 + S0 / 65536 ≤ 65535) :
    (S0 + (65535 - (S0 % 65536 + S0 / 65536))) % 4294967296 % 65536 +
    (S0 + (65535 - (S0 % 65536 + S0 / 65536))) % 4294967296 / 65536 = 65535 := by
  obtain ⟨q, r, hqr, hr, hq⟩ : ∃ q r, S0 = 65536 * q + r ∧ r < 65536 ∧ q < 65536 :=
    ⟨S0 / 65536, S0 % 65536, by omega, by omega, by omega⟩
  subst hqr
  have hm2 : (65536 * q + r) % 65536 = r := by omega
  have hm3 : (65536 * q + r) / 65536 = q := by omega
  rw [hm2, hm3]
  rw [hm2, hm3] at hnc
  have hmod : (65536 * q + r + (65535 - (r + q))) % 4294967296 =
      65536 * q + r + (65535 - (r + q)) := Nat.mod_eq_of_lt (by omega)
  rw [hmod]
  omega

/-- The checksum stored by `IPHeader::serialize` makes the checksum of the
serialized bytes verify (evaluate to zero), given no double carry. -/
theorem ip_serialize_checksum_zero (h : IPHeader) (hnc : IPHeader.NoDoubleCarry h) :
    ipChecksum (IPHeader.serialize h) = 0 := by
  simp only [IPHeader.NoDoubleCarry] at hnc
  have h1 := ipWords_serializeWith h (ipChecksum (IPHeader.serializeWith h 0))
  have h2 := ipWords_serializeWith_le h 0
  have hS : ipWords (IPHeader.serializeWith h 0) < 4294967296 := by omega
  have hc : ipChecksum (IPHeader.serializeWith h 0) =
      65535 - (ipWords (IPHeader.serializeWith h 0) % 65536 +
        ipWords (IPHeader.serializeWith h 0) / 65536) := by
    rw [ipChecksum_eq, Nat.mod_eq_of_lt hS, Nat.mod_eq_of_lt (by omega)]
  have hcu : u16 (65535 - (ipWords (IPHeader.serializeWith h 0) % 65536 +
      ipWords (IPHeader.serializeWith h 0) / 65536)) =
      65535 - (ipWords (IPHeader.serializeWith h 0) % 65536 +
        ipWords (IPHeader.serializeWith h 0) / 65536) := by
    simp only [u16]
    omega
  unfold IPHeader.serialize
  rw [ipChecksum_eq, h1, hc, hcu]
  rw [checksum_fold_eq _ hS hnc]

/-- `IPHeader::parse` inverts `IPHeader::serialize` on in-range headers
whose stored checksum is the serialized one, absent a double carry. -/
theorem ip_parse_serialize (h : IPHeader) (hfr : IPHeader.FieldsInRange h)
    (hnc : IPHeader.NoDoubleCarry h) (hck : h.checksum = IPHeader.trueChecksum h) :
    IPHeader.parse (IPHeader.serialize h) = Except.ok h := by
  obtain ⟨hv, hihl, htos, htl, hid, hfl, hflm, hfo, httl, hproto,
    hs0, hs1, hs2, hs3, hd0, hd1, hd2, hd3⟩ := hfr
  have hckle : IPHeader.trueChecksum h ≤ 65535 := by
    unfold IPHeader.trueChecksum
    rw [ipChecksum_eq]
    omega
  have hzero : ipChecksum (IPHeader.serialize h) = 0 := ip_serialize_checksum_zero h hnc
  have hlen : (IPHeader.serialize h).length = 20 := rfl
  have hpack : IPFlags.pack (u16 h.flags) (u16 h.frag_offset) =
      h.flags + h.frag_offset := by
    unfold IPFlags.pack u16
    rw [Nat.mod_eq_of_lt hfl, Nat.mod_eq_of_lt (by omega : h.frag_offset < 65536),
      land_8191, Nat.mod_eq_of_lt hfo]
    obtain ⟨k, hk, hkk⟩ : ∃ k, h.flags = 8192 * k ∧ k < 8 :=
      ⟨h.flags / 8192, by omega, by omega⟩
    rw [hk]
    have hor := Nat.mul_add_lt_is_or (show h.frag_offset < 2^13 by omega) k
    norm_num at hor
    omega
  have hb0 : byteAt (IPHeader.serialize h) 0 = h.version * 16 + h.ihl := by
    show u8 ((u8 h.version * 16) % 256 ||| u8 h.ihl) = _
    unfold u8
    rw [Nat.mod_eq_of_lt (by omega : h.version < 256),
      Nat.mod_eq_of_lt (by omega : h.ihl < 256),
      Nat.mod_eq_of_lt (by omega : h.version * 16 < 256),
      lor_nibbles _ _ hihl,
      Nat.mod_eq_of_lt (by omega)]
  have hb1 : byteAt (IPHeader.serialize h) 1 = h.tos := by
    show u8 (u8 h.tos) = _
    unfold u8
    omega
  have hb2 : byteAt (IPHeader.serialize h) 2 = h.total_len / 256 := by
    show u8 (u16 h.total_len / 256) = _
    unfold u8 u16
    rw [Nat.mod_eq_of_lt htl, Nat.mod_eq_of_lt (by omega : h.total_len / 256 < 256)]
  have hb3 : byteAt (IPHeader.serialize h) 3 = h.total_len % 256 := by
    show u8 (u16 h.total_len % 256) = _
    unfold u8 u16
    omega
  have hb4 : byteAt (IPHeader.serialize h) 4 = h.id / 256 := by
    show u8 (u16 h.id / 256) = _
    unfold u8 u16
    rw [Nat.mod_eq_of_lt hid, Nat.mod_eq_of_lt (by omega : h.id / 256 < 256)]
  have hb5 : byteAt (IPHeader.serialize h) 5 = h.id % 256 := by
    show u8 (u16 h.id % 256) = _
    unfold u8 u16
    omega
  have hb6 : byteAt (IPHeader.serialize h) 6 = (h.flags + h.frag_offset) / 256 := by
    show u8 (IPFlags.pack (u16 h.flags) (u16 h.frag_offset) / 256) = _
    rw [hpack]
    unfold u8
    rw [Nat.mod_eq_of_lt (by omega : (h.flags + h.frag_offset) / 256 < 256)]
  have hb7 : byteAt (IPHeader.serialize h) 7 = (h.flags + h.frag_offset) % 256 := by
    show u8 (IPFlags.pack (u16 h.flags) (u16 h.frag_offset) % 256) = _
    rw [hpack]
    unfold u8
    omega
  have hb8 : byteAt (IPHeader.serialize h) 8 = h.ttl := by
    show u8 (u8 h.ttl) = _
    unfold u8
    omega
  have hb9 : byteAt (IPHeader.serialize h) 9 = h.protocol := by
    show u8 (u8 h.protocol) = _
    unfold u8
    omega
  have hb10 : byteAt (IPHeader.serialize h) 10 = IPHeader.trueChecksum h / 256 := by
    show u8 (u16 (ipChecksum (IPHeader.serializeWith h 0)) / 256) = _
    unfold u8 u16 IPHeader.trueChecksum
    unfold IPHeader.trueChecksum at hckle
    rw [Nat.mod_eq_of_lt (by omega), Nat.mod_eq_of_lt (by omega)]
  have hb11 : byteAt (IPHeader.serialize h) 11 = IPHeader.trueChecksum h % 256 := by
    show u8 (u16 (ipChecksum (IPHeader.serializeWith h 0)) % 256) = _
    unfold u8 u16 IPHeader.trueChecksum
    omega
  have hb12 : byteAt (IPHeader.serialize h) 12 = h.src_ip.o0 := by
    show u8 (u8 h.src_ip.o0) = _
    unfold u8
    omega
  have hb13 : byteAt (IPHeader.serialize h) 13 = h.src_ip.o1 := by
    show u8 (u8 h.src_ip.o1) = _
    unfold u8
    omega
  have hb14 : byteAt (IPHeader.serialize h) 14 = h.src_ip.o2 := by
    show u8 (u8 h.src_ip.o2) = _
    unfold u8
    omega
  have hb15 : byteAt (IPHeader.serialize h) 15 = h.src_ip.o3 := by
    show u8 (u8 h.src_ip.o3) = _
    unfold u8
    omega
  have hb16 : byteAt (IPHeader.serialize h) 16 = h.dst_ip.o0 := by
    show u8 (u8 h.dst_ip.o0) = _
    unfold u8
    omega
  have hb17 : byteAt (IPHeader.serialize h) 17 = h.dst_ip.o1 := by
    show u8 (u8 h.dst_ip.o1) = _
    unfold u8
    omega
  have hb18 : byteAt (IPHeader.serialize h) 18 = h.dst_ip.o2 := by
    show u8 (u8 h.dst_ip.o2) = _
    unfold u8
    omega
  have hb19 : byteAt (IPHeader.serialize h) 19 = h.dst_ip.o3 := by
    show u8 (u8 h.dst_ip.o3) = _
    unfold u8
    omega
  obtain ⟨k, hk, hkk⟩ : ∃ k, h.flags = 8192 * k ∧ k < 8 :=
    ⟨h.flags / 8192, by omega, by omega⟩
  simp only [IPHeader.parse]
  rw [if_neg (by rw [hlen]; omega)]
  rw [List.take_of_length_le (by rw [hlen])]
  rw [if_neg (not_ne_iff.mpr hzero)]
  simp only [IPFlags.unpack, IPFlags.fromBitsTruncate, Except.ok.injEq]
  have hcombo : byteAt (IPHeader.serialize h) 6 * 256 + byteAt (IPHeader.serialize h) 7 =
      h.flags + h.frag_offset := by
    rw [hb6, hb7]
    omega
  ext <;> dsimp only
  · rw [hb0]; omega
  · rw [hb0]; omega
  · exact hb1
  · rw [hb2, hb3]; omega
  · rw [hb4, hb5]; omega
  · rw [hcombo, hk, land_high_mask k h.frag_offset hkk hfo]
    have := land_high_mask k 0 hkk (by omega)
    simpa using this
  · rw [hcombo, land_8191]
    omega
  · exact hb8
  · exact hb9
  · rw [hb10, hb11, hck]
    omega
  · exact hb12
  · exact hb13
  · exact hb14
  · exact hb15
  · exact hb16
  · exact hb17
  · exact hb18
  · exact hb19

theorem tcpChecksum_eq (data : List Nat) (iph : IPHeader) :
    tcpChecksum data iph =
      65535 - ((tcpSum data iph % 4294967296) % 65536 +
        (tcpSum data iph % 4294967296) / 65536) % 65536 := rfl

/-- The serialized segment's word sum is the zero-checksum word sum plus
the stored checksum (the checksum word sits at the aligned offset 16). -/
theorem tcpWords_serializeWith (t : TCPHeader) (ck : Nat) :
    tcpWords (TCPHeader.serializeWith t ck) =
      tcpWords (TCPHeader.serializeWith t 0) + u16 ck := by
  simp only [TCPHeader.serializeWith, List.cons_append, List.nil_append, tcpWords, u8, u16]
  omega

/-- A 16-bit word sum of `n` bytes is at most `65535 · ⌈n/2⌉`. -/
theorem tcpWords_le (l : List Nat) : tcpWords l ≤ 65535 * ((l.length + 1) / 2) := by
  have main : ∀ n (l : List Nat), l.length ≤ n →
      tcpWords l ≤ 65535 * ((l.length + 1) / 2) := by
    intro n
    induction n with
    | zero =>
      intro l h
      have : l = [] := List.length_eq_zero.mp (by omega)
      subst this
      simp [tcpWords]
    | succ n ih =>
      intro l h
      rcases l with _ | ⟨b0, _ | ⟨b1, rest⟩⟩
      · simp [tcpWords]
      · simp only [tcpWords, u8]
        have := Nat.mod_lt b0 (show 0 < 256 by norm_num)
        simp
        omega
      · have hr := ih rest (by simp at h; omega)
        simp only [tcpWords, u8]
        simp only [List.length_cons]
        have h0 := Nat.mod_lt b0 (show 0 < 256 by norm_num)
        have h1 := Nat.mod_lt b1 (show 0 < 256 by norm_num)
        omega
  exact main l.length l (le_refl _)

/-- The pseudo-header plus word sum of a segment of at most `65536` bytes
fits in `u32` without wrapping. -/
theorem tcpSum_lt (data : List Nat) (iph : IPHeader) (hlen : data.length ≤ 65536) :
    tcpSum data iph < 4294967296 := by
  have hw := tcpWords_le data
  have hhalf : (data.length + 1) / 2 ≤ 32768 := by omega
  have hb : 65535 * ((data.length + 1) / 2) ≤ 65535 * 32768 :=
    Nat.mul_le_mul_left _ hhalf
  unfold tcpSum u8
  have h0 := Nat.mod_lt iph.src_ip.o0 (show 0 < 256 by norm_num)
  have h1 := Nat.mod_lt iph.src_ip.o1 (show 0 < 256 by norm_num)
  have h2 := Nat.mod_lt iph.src_ip.o2 (show 0 < 256 by norm_num)
  have h3 := Nat.mod_lt iph.src_ip.o3 (show 0 < 256 by norm_num)
  have h4 := Nat.mod_lt iph.dst_ip.o0 (show 0 < 256 by norm_num)
  have h5 := Nat.mod_lt iph.dst_ip.o1 (show 0 < 256 by norm_num)
  have h6 := Nat.mod_lt iph.dst_ip.o2 (show 0 < 256 by norm_num)
  have h7 := Nat.mod_lt iph.dst_ip.o3 (show 0 < 256 by norm_num)
  have h8 := Nat.mod_lt iph.protocol (show 0 < 256 by norm_num)
  omega

/-- Zero- and true-checksum serializations have the same length. -/
theorem tcp_serializeWith_length (t : TCPHeader) (ck : Nat) :
    (TCPHeader.serializeWith t ck).length = 20 + t.options.length + t.payload.length := by
  simp [TCPHeader.serializeWith]
  omega

/-- The sum over the serialization with the checksum stored is the
zero-checksum sum plus the checksum. -/
theorem tcpSum_serializeWith (t : TCPHeader) (iph : IPHeader) (ck : Nat) :
    tcpSum (TCPHeader.serializeWith t ck) iph =
      tcpSum (TCPHeader.serializeWith t 0) iph + u16 ck := by
  unfold tcpSum
  rw [tcpWords_serializeWith, tcp_serializeWith_length, tcp_serializeWith_length]
  omega

/-- The checksum stored by `TCPHeader::serialize` makes the checksum of
the serialized segment verify, given no double carry and an in-range
segment length. -/
theorem tcp_serialize_checksum_zero (t : TCPHeader) (iph : IPHeader)
    (hnc : TCPHeader.NoDoubleCarry t iph)
    (hlen : 20 + t.options.length + t.payload.length ≤ 65536) :
    tcpChecksum (TCPHeader.serialize t iph) iph = 0 := by
  simp only [TCPHeader.NoDoubleCarry] at hnc
  have hS : tcpSum (TCPHeader.serializeWith t 0) iph < 4294967296 :=
    tcpSum_lt _ _ (by rw [tcp_serializeWith_length]; omega)
  have hc : tcpChecksum (TCPHeader.serializeWith t 0) iph =
      65535 - (tcpSum (TCPHeader.serializeWith t 0) iph % 65536 +
        tcpSum (TCPHeader.serializeWith t 0) iph / 65536) := by
    rw [tcpChecksum_eq, Nat.mod_eq_of_lt hS, Nat.mod_eq_of_lt (by omega)]
  have h1 := tcpSum_serializeWith t iph (tcpChecksum (TCPHeader.serializeWith t 0) iph)
  have hcu : u16 (65535 - (tcpSum (TCPHeader.serializeWith t 0) iph % 65536 +
      tcpSum (TCPHeader.serializeWith t 0) iph / 65536)) =
      65535 - (tcpSum (TCPHeader.serializeWith t 0) iph % 65536 +
        tcpSum (TCPHeader.serializeWith t 0) iph / 65536) := by
    simp only [u16]
    omega
  unfold TCPHeader.serialize
  rw [tcpChecksum_eq, h1, hc, hcu]
  rw [checksum_fold_eq _ hS hnc]

/-- `TCPHeader::parse` inverts `TCPHeader::serialize` on in-range headers
with consistent offsets whose stored checksum is the serialized one,
absent a double carry. -/
theorem tcp_parse_serialize (t : TCPHeader) (iph : IPHeader)
    (hfr : TCPHeader.FieldsInRange t)
    (ho4 : t.options.length % 4 = 0)
    (hoff : t.data_offset = 5 + t.options.length / 4)
    (hck : t.checksum = TCPHeader.trueChecksum t iph)
    (hnc : TCPHeader.NoDoubleCarry t iph)
    (hlen : 20 + t.options.length + t.payload.length ≤ 65536) :
    TCPHeader.parse (TCPHeader.serialize t iph) iph = Except.ok t := by
  obtain ⟨hsp, hdp, hseq, hack, hdo, hres, hflags, hwin, hurg, hob, hpb⟩ := hfr
  have hhl : t.data_offset * 4 = 20 + t.options.length := by omega
  have hslen' : (TCPHeader.serialize t iph).length =
      20 + t.options.length + t.payload.length :=
    tcp_serializeWith_length t (tcpChecksum (TCPHeader.serializeWith t 0) iph)
  have hckle : TCPHeader.trueChecksum t iph ≤ 65535 := by
    unfold TCPHeader.trueChecksum
    rw [tcpChecksum_eq]
    omega
  have hzero : tcpChecksum (TCPHeader.serialize t iph) iph = 0 :=
    tcp_serialize_checksum_zero t iph hnc hlen
  have hb0 : byteAt (TCPHeader.serialize t iph) 0 = t.src_port / 256 := by
    show u8 (u16 t.src_port / 256) = _
    unfold u8 u16
    rw [Nat.mod_eq_of_lt hsp, Nat.mod_eq_of_lt (by omega : t.src_port / 256 < 256)]
  have hb1 : byteAt (TCPHeader.serialize t iph) 1 = t.src_port % 256 := by
    show u8 (u16 t.src_port % 256) = _
    unfold u8 u16
    omega
  have hb2 : byteAt (TCPHeader.serialize t iph) 2 = t.dst_port / 256 := by
    show u8 (u16 t.dst_port / 256) = _
    unfold u8 u16
    rw [Nat.mod_eq_of_lt hdp, Nat.mod_eq_of_lt (by omega : t.dst_port / 256 < 256)]
  have hb3 : byteAt (TCPHeader.serialize t iph) 3 = t.dst_port % 256 := by
    show u8 (u16 t.dst_port % 256) = _
    unfold u8 u16
    omega
  have hb4 : byteAt (TCPHeader.serialize t iph) 4 = t.seq_no.value / 16777216 := by
    show u8 (u32 t.seq_no.value / 16777216) = _
    unfold u8 u32
    omega
  have hb5 : byteAt (TCPHeader.serialize t iph) 5 = t.seq_no.value / 65536 % 256 := by
    show u8 (u32 t.seq_no.value / 65536 % 256) = _
    unfold u8 u32
    omega
  have hb6 : byteAt (TCPHeader.serialize t iph) 6 = t.seq_no.value / 256 % 256 := by
    show u8 (u32 t.seq_no.value / 256 % 256) = _
    unfold u8 u32
    omega
  have hb7 : byteAt (TCPHeader.serialize t iph) 7 = t.seq_no.value % 256 := by
    show u8 (u32 t.seq_no.value % 256) = _
    unfold u8 u32
    omega
  have hb8 : byteAt (TCPHeader.serialize t iph) 8 = t.ack_no.value / 16777216 := by
    show u8 (u32 t.ack_no.value / 16777216) = _
    unfold u8 u32
    omega
  have hb9 : byteAt (TCPHeader.serialize t iph) 9 = t.ack_no.value / 65536 % 256 := by
    show u8 (u32 t.ack_no.value / 65536 % 256) = _
    unfold u8 u32
    omega
  have hb10 : byteAt (TCPHeader.serialize t iph) 10 = t.ack_no.value / 256 % 256 := by
    show u8 (u32 t.ack_no.value / 256 % 256) = _
    unfold u8 u32
    omega
  have hb11 : byteAt (TCPHeader.serialize t iph) 11 = t.ack_no.value % 256 := by
    show u8 (u32 t.ack_no.value % 256) = _
    unfold u8 u32
    omega
  have hb12 : byteAt (TCPHeader.serialize t iph) 12 =
      t.data_offset * 16 + t.reserved := by
    show u8 ((u8 t.data_offset * 16) % 256 ||| u8 t.reserved) = _
    unfold u8
    rw [Nat.mod_eq_of_lt (by omega : t.data_offset < 256),
      Nat.mod_eq_of_lt (by omega : t.reserved < 256),
      Nat.mod_eq_of_lt (by omega : t.data_offset * 16 < 256),
      lor_nibbles _ _ hres, Nat.mod_eq_of_lt (by omega)]
  have hb13 : byteAt (TCPHeader.serialize t iph) 13 = t.flags := by
    show u8 (u8 t.flags) = _
    unfold u8
    omega
  have hb14 : byteAt (TCPHeader.serialize t iph) 14 = t.window / 256 := by
    show u8 (u16 t.window / 256) = _
    unfold u8 u16
    rw [Nat.mod_eq_of_lt hwin, Nat.mod_eq_of_lt (by omega : t.window / 256 < 256)]
  have hb15 : byteAt (TCPHeader.serialize t iph) 15 = t.window % 256 := by
    show u8 (u16 t.window % 256) = _
    unfold u8 u16
    omega
  have hb16 : byteAt (TCPHeader.serialize t iph) 16 =
      TCPHeader.trueChecksum t iph / 256 := by
    show u8 (u16 (tcpChecksum (TCPHeader.serializeWith t 0) iph) / 256) = _
    unfold u8 u16 TCPHeader.trueChecksum
    unfold TCPHeader.trueChecksum at hckle
    rw [Nat.mod_eq_of_lt (by omega), Nat.mod_eq_of_lt (by omega)]
  have hb17 : byteAt (TCPHeader.serialize t iph) 17 =
      TCPHeader.trueChecksum t iph % 256 := by
    show u8 (u16 (tcpChecksum (TCPHeader.serializeWith t 0) iph) % 256) = _
    unfold u8 u16 TCPHeader.trueChecksum
    omega
  have hb18 : byteAt (TCPHeader.serialize t iph) 18 = t.urgent / 256 := by
    show u8 (u16 t.urgent / 256) = _
    unfold u8 u16
    rw [Nat.mod_eq_of_lt hurg, Nat.mod_eq_of_lt (by omega : t.urgent / 256 < 256)]
  have hb19 : byteAt (TCPHeader.serialize t iph) 19 = t.urgent % 256 := by
    show u8 (u16 t.urgent % 256) = _
    unfold u8 u16
    omega
  have hdrop20 : (TCPHeader.serialize t iph).drop 20 = t.options ++ t.payload := rfl
  simp only [TCPHeader.parse]
  rw [if_neg (by rw [hslen']; omega)]
  rw [hb12]
  have hdiv : (t.data_offset * 16 + t.reserved) / 16 = t.data_offset := by omega
  rw [hdiv]
  rw [if_neg (by rw [hslen']; omega :
    ¬ ((TCPHeader.serialize t iph).length < t.data_offset * 4))]
  have hopts : (if 20 < t.data_offset * 4 then
      ((TCPHeader.serialize t iph).drop 20).take (t.data_offset * 4 - 20) else []) =
      t.options := by
    by_cases ho : t.options.length = 0
    · rw [if_neg (by omega)]
      exact (List.length_eq_zero.mp ho).symm
    · rw [if_pos (by omega), hdrop20]
      have h1 : t.data_offset * 4 - 20 = t.options.length := by omega
      rw [h1, List.take_left]
  rw [hopts]
  have hpay : (if t.data_offset * 4 < (TCPHeader.serialize t iph).length then
      (TCPHeader.serialize t iph).drop (t.data_offset * 4) else []) = t.payload := by
    by_cases hp : t.payload.length = 0
    · rw [if_neg (by rw [hslen']; omega)]
      exact (List.length_eq_zero.mp hp).symm
    · rw [if_pos (by rw [hslen']; omega)]
      have h1 : t.data_offset * 4 = t.options.length + 20 := by omega
      have hsplit : ((TCPHeader.serialize t iph).drop 20).drop t.options.length =
          (TCPHeader.serialize t iph).drop (20 + t.options.length) :=
        List.drop_drop _ _ _
      rw [hhl, ← hsplit, hdrop20, List.drop_left]
  rw [hpay]
  have htake : (TCPHeader.serialize t iph).take (t.data_offset * 4 + t.payload.length) =
      TCPHeader.serialize t iph :=
    List.take_of_length_le (by rw [hslen']; omega)
  rw [htake, if_neg (not_ne_iff.mpr hzero)]
  simp only [Except.ok.injEq]
  refine TCPHeader.ext ?_ ?_ ?_ ?_ ?_ ?_ ?_ ?_ ?_ ?_ ?_ ?_
  · dsimp only
    rw [hb0, hb1]; omega
  · dsimp only
    rw [hb2, hb3]; omega
  · refine Wrap32.ext ?_
    dsimp only [Wrap32.new]
    rw [hb4, hb5, hb6, hb7]; omega
  · refine Wrap32.ext ?_
    dsimp only [Wrap32.new]
    rw [hb8, hb9, hb10, hb11]; omega
  · rfl
  · dsimp only
    omega
  · dsimp only
    rw [hb13]
    unfold TCPFlags.fromBitsTruncate
    rw [land_255]
    omega
  · dsimp only
    rw [hb14, hb15]; omega
  · dsimp only
    rw [hb16, hb17, hck]; omega
  · dsimp only
    rw [hb18, hb19]; omega
  · rfl
  · rfl

/-- Claim C7 (amended): for every well-formed, in-range header pair whose
stored checksum fields equal the checksums `serialize` computes and whose
zero-checksum word sums do not double-carry in the single fold,
`unwrap(wrap(iph, tcph))` succeeds and returns the original pair; this
holds in particular for odd-length TCP segments, whose final byte is
padded with a zero low byte in the word sum.  (As literally stated the
claim is refuted: `serialize` never reads the structs' `checksum` fields,
while `parse` stores the wire checksums into them, so a pair whose
`checksum` fields differ from the computed ones — e.g. zero — round-trips
to different structs; see the counterexample.) -/
theorem tcp_over_ip_roundtrip (iph : IPHeader) (tcph : TCPHeader)
    (hfi : IPHeader.FieldsInRange iph) (hft : TCPHeader.FieldsInRange tcph)
    (hwf : WellFormedPair iph tcph)
    (hcki : iph.checksum = IPHeader.trueChecksum iph)
    (hckt : tcph.checksum = TCPHeader.trueChecksum tcph iph)
    (hnci : IPHeader.NoDoubleCarry iph)
    (hnct : TCPHeader.NoDoubleCarry tcph iph) :
    unwrapPacket (wrapPacket iph tcph) = Except.ok (iph, tcph) := by
  obtain ⟨ho4, hoff, htl⟩ := hwf
  have htl16 : iph.total_len < 65536 := hfi.2.2.2.1
  have hhl : tcph.data_offset * 4 = 20 + tcph.options.length := by omega
  have hlen : 20 + tcph.options.length + tcph.payload.length ≤ 65536 := by omega
  have hip := ip_parse_serialize iph hfi hnci hcki
  have htcp := tcp_parse_serialize tcph iph hft ho4 hoff hckt hnct hlen
  unfold unwrapPacket wrapPacket
  have htake20 : (IPHeader.serialize iph ++ TCPHeader.serialize tcph iph).take 20 =
      IPHeader.serialize iph := by
    rw [show (20:Nat) = (IPHeader.serialize iph).length from rfl, List.take_left]
  rw [htake20, hip]
  dsimp only
  have htclen : (TCPHeader.serialize tcph iph).length =
      20 + tcph.options.length + tcph.payload.length := tcp_serializeWith_length _ _
  have hplen : (IPHeader.serialize iph ++ TCPHeader.serialize tcph iph).length =
      iph.total_len := by
    rw [List.length_append, htclen]
    have : (IPHeader.serialize iph).length = 20 := rfl
    omega
  have htaketl : (IPHeader.serialize iph ++ TCPHeader.serialize tcph iph).take
      iph.total_len = IPHeader.serialize iph ++ TCPHeader.serialize tcph iph :=
    List.take_of_length_le (by rw [hplen])
  rw [htaketl]
  have hdrop : (IPHeader.serialize iph ++ TCPHeader.serialize tcph iph).drop 20 =
      TCPHeader.serialize tcph iph := by
    rw [show (20:Nat) = (IPHeader.serialize iph).length from rfl, List.drop_left]
  rw [hdrop, htcp]


/-- Counterexample to C7 as stated: a well-formed in-range pair with an
odd-length payload whose stored checksum fields are zero round-trips to a
*different* pair — the parse result carries the wire checksums, which
`serialize` computed afresh without reading the structs' fields. -/
theorem tcp_over_ip_roundtrip_cex :
    WellFormedPair ipCexHeader tcpCexHeader ∧
    tcpCexHeader.payload.length % 2 = 1 ∧
    unwrapPacket (wrapPacket ipCexHeader tcpCexHeader) ≠
      Except.ok (ipCexHeader, tcpCexHeader) := by
  refine ⟨⟨by decide, by decide, by decide⟩, by decide, by decide⟩

/-- Witness for the amended C7 at a concrete in-range pair with an
odd-length (one-byte) payload and the computed checksums stored. -/
theorem tcp_over_ip_roundtrip_witness :
    IPHeader.FieldsInRange ipRtHeader ∧ TCPHeader.FieldsInRange tcpRtHeader ∧
    WellFormedPair ipRtHeader tcpRtHeader ∧
    ipRtHeader.checksum = IPHeader.trueChecksum ipRtHeader ∧
    tcpRtHeader.checksum = TCPHeader.trueChecksum tcpRtHeader ipRtHeader ∧
    IPHeader.NoDoubleCarry ipRtHeader ∧
    TCPHeader.NoDoubleCarry tcpRtHeader ipRtHeader ∧
    unwrapPacket (wrapPacket ipRtHeader tcpRtHeader) =
      Except.ok (ipRtHeader, tcpRtHeader) :=
  ⟨by decide, by decide, by decide, by decide, by decide, by decide, by decide,
    tcp_over_ip_roundtrip ipRtHeader tcpRtHeader (by decide) (by decide) (by decide)
      (by decide) (by decide) (by decide) (by decide)⟩
